import Mathlib

set_option maxRecDepth 8000

/-!
Verification development for the `recursivecode` tokenizer library
(C++ sources `bpe.cpp` / `bpe.hpp` and `lz.cpp` / `lz.hpp`).

Modeling conventions used throughout this file:

* `TokenType` (C++ `int`) is modeled as `Int`; token sequences
  (`std::vector<int>`) as `List Int`.
* `std::set<int>` (ordered) is modeled as a strictly sorted `List Int`;
  `*s.begin()` is the head of that list.  `std::unordered_set` /
  `std::unordered_map` have unspecified iteration order in C++; we model
  them canonically: sets iterate in ascending order, maps iterate in
  insertion order (first insertion fixes the position of a key).
* `size_t` arithmetic is modeled exactly where it matters: subtraction
  wraps modulo `2 ^ 64`.
* Out-of-bounds reads and other undefined behavior are modeled by an
  `Option`/`Except` result of `none` / `.error`.
* Loops are translated with an explicit fuel argument whenever the C++
  loop is not structurally recursive; the fuel chosen at the call site
  is provably sufficient, so the executable behavior coincides with the
  loop's behavior.
-/

/-- The sentinel `EMPTY_TOKEN = -1` from `lz.hpp`. -/
def EMPTY_TOKEN : Int := -1

/-! ## Primitives from `bpe.cpp` -/

/-- Index-scanning loop of `merge_pairs` (bpe.cpp).  The C++ loop is
`while (i < tokens.size())`, replacing `tokens[i], tokens[i+1]` by
`new_token` and advancing by 2 on a match, else advancing by 1.  The
fuel argument (`tokens.length` at the call site) bounds the number of
iterations; each iteration advances `i` by at least one, so that fuel is
sufficient. -/
def mergePairsGo (tokens : List Int) (p : Int × Int) (newTok : Int) :
    Nat → Nat → List Int
  | 0, _ => []
  | fuel + 1, i =>
    if i < tokens.length then
      if i + 1 < tokens.length ∧ tokens.getD i 0 = p.1 ∧ tokens.getD (i + 1) 0 = p.2 then
        newTok :: mergePairsGo tokens p newTok fuel (i + 2)
      else
        tokens.getD i 0 :: mergePairsGo tokens p newTok fuel (i + 1)
    else []

/-- `merge_pairs(tokens, pair, new_token)` from bpe.cpp: merge all
occurrences of an adjacent pair into a single new token, scanning left
to right. -/
def merge_pairs (tokens : List Int) (p : Int × Int) (newTok : Int) : List Int :=
  mergePairsGo tokens p newTok tokens.length 0

/-- Modelled from the spec: `merge_pairs` described as a left-to-right
greedy non-overlapping replacement on a list — when the next two
elements are the pair, emit `new` and drop both; otherwise emit the
first element and continue with the rest. -/
def mergePairsSpec (p : Int × Int) (newTok : Int) : List Int → List Int
  | a :: b :: rest =>
    if a = p.1 ∧ b = p.2 then newTok :: mergePairsSpec p newTok rest
    else a :: mergePairsSpec p newTok (b :: rest)
  | l => l
termination_by l => l.length

/-- `2 ^ 64`, the modulus of `size_t` arithmetic, as a literal. -/
def SIZE_T_MOD : Nat := 18446744073709551616

/-- `tokens.size() - 1` computed in `size_t`: for `n = 0` the
subtraction wraps around to `2 ^ 64 - 1`; for representable sizes
`1 ≤ n ≤ 2 ^ 64` it is the ordinary `n - 1`.  (A C++ vector can never
hold more than `2 ^ 64` elements, so this case split is exactly the
wrap-around semantics.) -/
def sizeSub1 (n : Nat) : Nat := if n = 0 then SIZE_T_MOD - 1 else n - 1

/-- One `stats[pair]++` update of the pair-statistics accumulator.  The
`std::unordered_map` is modeled as an association list in insertion
order: a new key is appended at the end, an existing key is bumped in
place. -/
def bumpPair (stats : List ((Int × Int) × Nat)) (q : Int × Int) :
    List ((Int × Int) × Nat) :=
  match stats with
  | [] => [(q, 1)]
  | (r, c) :: rest => if r = q then (r, c + 1) :: rest else (r, c) :: bumpPair rest q

/-- The pair statistics accumulated by the loop body of `get_stats` when
every access is in bounds: one `bumpPair` per adjacent pair, in
left-to-right order. -/
def statsList (tokens : List Int) : List ((Int × Int) × Nat) :=
  (tokens.zip tokens.tail).foldl bumpPair []

/-- `get_stats(tokens)` from bpe.cpp.  The loop runs
`for (size_t i = 0; i < tokens.size() - 1; ++i)` and reads `tokens[i]`
and `tokens[i+1]`.  The bound `tokens.size() - 1` is computed in
`size_t`, so on the empty input it wraps to `2^64 - 1` and the loop
reads out of bounds: that undefined behavior is modeled as `none`.
When the bound is in range the loop visits exactly the adjacent pairs
of the sequence. -/
def get_stats (tokens : List Int) : Option (List ((Int × Int) × Nat)) :=
  let bound := sizeSub1 tokens.length
  if bound = 0 then some []
  else if bound < tokens.length then some (statsList tokens) else none

/-- `std::max_element` over the (insertion-ordered) statistics with
comparator `a.second < b.second`: returns the first element whose count
is not exceeded strictly by any later element. -/
def maxElement (stats : List ((Int × Int) × Nat)) : Option ((Int × Int) × Nat) :=
  match stats with
  | [] => none
  | e :: rest => some (rest.foldl (fun best x => if best.2 < x.2 then x else best) e)

/-! ### Equivalence of the index-scanning loop with the list scan -/

lemma mergePairsGo_spec (tokens : List Int) (p : Int × Int) (newTok : Int) :
    ∀ fuel i, tokens.length - i ≤ fuel →
      mergePairsGo tokens p newTok fuel i = mergePairsSpec p newTok (tokens.drop i) := by
  intro fuel
  induction fuel with
  | zero =>
    intro i hi
    have : tokens.length ≤ i := by omega
    simp [mergePairsGo, List.drop_eq_nil_of_le this, mergePairsSpec]
  | succ fuel ih =>
    intro i hi
    by_cases h : i < tokens.length
    · have hdrop : tokens.drop i = tokens[i] :: tokens.drop (i + 1) :=
        List.drop_eq_getElem_cons h
      by_cases h2 : i + 1 < tokens.length
      · have hdrop2 : tokens.drop (i + 1) = tokens[i+1] :: tokens.drop (i + 2) :=
          List.drop_eq_getElem_cons h2
        by_cases hm : tokens.getD i 0 = p.1 ∧ tokens.getD (i + 1) 0 = p.2
        · have hg1 : tokens.getD i 0 = tokens[i] := List.getD_eq_getElem _ _ h
          have hg2 : tokens.getD (i + 1) 0 = tokens[i+1] := List.getD_eq_getElem _ _ h2
          rw [mergePairsGo, if_pos h, if_pos ⟨h2, hm⟩, hdrop, hdrop2, mergePairsSpec]
          rw [if_pos ⟨by rw [← hg1, hm.1], by rw [← hg2, hm.2]⟩]
          rw [ih (i + 2) (by omega)]
        · have hg1 : tokens.getD i 0 = tokens[i] := List.getD_eq_getElem _ _ h
          have hg2 : tokens.getD (i + 1) 0 = tokens[i+1] := List.getD_eq_getElem _ _ h2
          rw [mergePairsGo, if_pos h, if_neg (by tauto), hdrop, hdrop2, mergePairsSpec]
          rw [if_neg (by rw [← hg1, ← hg2]; tauto)]
          rw [hg1, ih (i + 1) (by omega), hdrop2]
      · -- `i` is the last index: the pair condition is false and the scan emits the
        -- final element alone.
        have hlast : tokens.drop (i + 1) = [] := by
          apply List.drop_eq_nil_of_le; omega
        have hg1 : tokens.getD i 0 = tokens[i] := List.getD_eq_getElem _ _ h
        rw [mergePairsGo, if_pos h, if_neg (by tauto)]
        rw [ih (i + 1) (by omega), hdrop, hlast, hg1]
        simp [mergePairsSpec]
    · have hnil : tokens.drop i = [] := List.drop_eq_nil_of_le (by omega)
      simp [mergePairsGo, if_neg h, hnil, mergePairsSpec]

/-- C6: `merge_pairs(s, (a,b), new)` performs left-to-right greedy
non-overlapping replacement (when the next two elements match the pair,
emit `new` and advance by 2, else emit the element and advance by 1),
and in particular merging `(x,x)` in `[x,x,x]` yields `[new, x]`, the
earlier position winning. -/
theorem merge_pairs_greedy :
    (∀ (s : List Int) (p : Int × Int) (n : Int),
        merge_pairs s p n = mergePairsSpec p n s) ∧
    (∀ x n : Int, merge_pairs [x, x, x] (x, x) n = [n, x]) := by
  constructor
  · intro s p n
    have := mergePairsGo_spec s p n s.length 0 (by omega)
    simpa [merge_pairs] using this
  · intro x n
    have h := mergePairsGo_spec [x, x, x] (x, x) n 3 0 (by simp)
    simp only [merge_pairs] at *
    rw [show ([x, x, x] : List Int).length = 3 from rfl, h]
    simp [mergePairsSpec]

/-! ## Ordered integer sets and insertion-ordered maps

`std::set<int>` is an ordered container; we model it as a strictly
sorted `List Int` whose head is `*s.begin()`.  The unordered containers
(`std::unordered_set` / `std::unordered_map`) are modeled canonically:
sets with the same sorted list, maps as association lists in insertion
order. -/

/-- Insert into a strictly sorted list of integers, keeping it sorted
and duplicate-free (`std::set::insert`). -/
def setInsert : List Int → Int → List Int
  | [], x => [x]
  | y :: rest, x =>
    if x < y then x :: y :: rest
    else if x = y then y :: rest
    else y :: setInsert rest x

/-- Remove an element from a list of integers (`std::set::erase`). -/
def setErase : List Int → Int → List Int
  | [], _ => []
  | y :: rest, x => if y = x then rest else y :: setErase rest x

/-- Build the set of elements of a sequence
(`VocabSet(tokens.begin(), tokens.end())`). -/
def setOfList (tokens : List Int) : List Int := tokens.foldl setInsert []

/-- Look up a key in an insertion-ordered association list
(`map.find(k)`). -/
def mapFind (m : List (Int × List Int)) (k : Int) : Option (List Int) :=
  match m with
  | [] => none
  | (k', v) :: rest => if k' = k then some v else mapFind rest k

/-- `map[k] = v`: update an existing key in place, or append a new key
at the end of the iteration order. -/
def mapSet (m : List (Int × List Int)) (k : Int) (v : List Int) :
    List (Int × List Int) :=
  match m with
  | [] => [(k, v)]
  | (k', v') :: rest => if k' = k then (k, v) :: rest else (k', v') :: mapSet rest k v

/-- Reading `map[k]` with `operator[]`: returns the stored value, or
default-inserts an empty vector for a missing key and returns that.
The possibly-extended map is returned alongside the value. -/
def mapGetD (m : List (Int × List Int)) (k : Int) :
    List Int × List (Int × List Int) :=
  match mapFind m k with
  | some v => (v, m)
  | none => ([], m ++ [(k, [])])

/-- C2 (code bug): on the empty sequence `get_stats`'s loop bound
`tokens.size() - 1` underflows to `2^64 - 1` and the loop reads
`tokens[0]` out of bounds — undefined behavior, modeled as `none` —
whereas the claim requires an empty mapping.  On a length-1 input the
bound is `0` and the empty mapping is correctly returned. -/
theorem get_stats_empty_input_ub :
    get_stats [] = none ∧ sizeSub1 0 = 2 ^ 64 - 1 ∧
      get_stats [(5 : Int)] = some [] ∧
      get_stats [(1 : Int), 2, 1] = some [((1, 2), 1), ((2, 1), 1)] := by
  refine ⟨?_, ?_, ?_, ?_⟩ <;> decide

/-! ## The BPE tokenizer (`class BPE`, bpe.cpp) -/

/-- State of a `bpe::BPE` tokenizer.  `merges_` is the ordered merge
list (seeding merges `(0, v)` first), `token_values_` maps an output id
to the input symbols it expands to, and the two vocabularies are
integer sets. -/
structure BPEState where
  merges : List (Int × Int)
  token_values : List (Int × List Int)
  input_vocab : List Int
  output_vocab : List Int
  max_output_vocab : Option Int
  max_merges : Option Int
deriving DecidableEq, Repr

/-- The `BPE` constructor: fails (`std::invalid_argument`) when neither
`max_output_vocab` nor `max_merges` is given. -/
def bpeNew (maxOutputVocab maxMerges : Option Int) : Option BPEState :=
  if maxOutputVocab.isNone ∧ maxMerges.isNone then none
  else some ⟨[], [], [], [], maxOutputVocab, maxMerges⟩

/-- `*std::max_element(l.begin(), l.end())`; dereferencing the end
iterator of an empty range is undefined behavior, modeled by the junk
value `0`. -/
def maxIntList : List Int → Int
  | [] => 0
  | h :: t => t.foldl max h

/-- The output vocabulary `{1, ..., n}` written by `BPE::learn`. -/
def outRange (n : Nat) : List Int := (List.range n).map (fun i => (i : Int) + 1)

/-- The merge loop of `BPE::learn` (bpe.cpp).  While
`merges_.size() < max_output_vocab`, compute the pair statistics of the
working sequence, break if they are empty or the most frequent pair
occurs only once, otherwise merge that pair into `next_token`, append
it to `merges_`, and store the concatenated expansion under the id
`merges_.size()` (after the push).  `inverse_token_values` is only
written inside the loop, never read, so it is omitted from the state.
Undefined behavior inside `get_stats` propagates as `none`.  The loop
body is `bpeLearnBody` (`some none` = break, `some (some _)` = updated
loop state); the fuel counts the remaining loop iterations; the caller
passes `(max_output_vocab - merges.size()).toNat`, which is exact
because each iteration grows `merges_` by one. -/
def bpeLearnBody (working : List Int) (merges : List (Int × Int))
    (tv : List (Int × List Int)) (next : Int) :
    Option (Option (List Int × List (Int × Int) × List (Int × List Int) × Int)) :=
  match get_stats working with
  | none => none
  | some stats =>
    match maxElement stats with
    | none => some none
    | some (p, c) =>
      if c = 1 then some none
      else
        let working' := merge_pairs working p next
        let merges' := merges ++ [p]
        let r1 := mapGetD tv p.1
        let r2 := mapGetD r1.2 p.2
        let tv' := mapSet r2.2 (merges'.length : Int) (r1.1 ++ r2.1)
        some (some (working', merges', tv', next + 1))

def bpeLearnStep
    (cont : List Int → List (Int × Int) → List (Int × List Int) → Int →
      Option (List (Int × Int) × List (Int × List Int)))
    (maxV : Int) (working : List Int) (merges : List (Int × Int))
    (tv : List (Int × List Int)) (next : Int) :
    Option (List (Int × Int) × List (Int × List Int)) :=
  if (merges.length : Int) < maxV then
    match bpeLearnBody working merges tv next with
    | none => none
    | some none => some (merges, tv)
    | some (some (w', m', tv', n')) => cont w' m' tv' n'
  else some (merges, tv)

def bpeLearnLoop (maxV : Int) (fuel : Nat) :
    List Int → List (Int × Int) → List (Int × List Int) → Int →
      Option (List (Int × Int) × List (Int × List Int)) :=
  Nat.rec (motive := fun _ => List Int → List (Int × Int) → List (Int × List Int) →
      Int → Option (List (Int × Int) × List (Int × List Int)))
    (fun _ merges tv _ => some (merges, tv))
    (fun _ ih => bpeLearnStep ih maxV)
    fuel

lemma bpeLearnLoop_succ (maxV : Int) (fuel : Nat) :
    bpeLearnLoop maxV (fuel + 1) = bpeLearnStep (bpeLearnLoop maxV fuel) maxV := by
  unfold bpeLearnLoop
  rfl

/-- `BPE::learn(tokens, input_vocab)` (bpe.cpp).  The vocabulary is the
given set or the set of input symbols; the unordered set is iterated in
ascending order (canonical model of the unspecified iteration order).
Seeding merges `(0, v)` and singleton expansions are installed, then
the merge loop runs.  The initial working sequence maps each token
through `inverse_token_values` with `operator[]`, whose default value
for an out-of-vocabulary token is `0`.  A `none` result models
undefined behavior (only possible through `get_stats`, see above). -/
def bpeLearn (b : BPEState) (tokens : List Int) (inputVocab : Option (List Int)) :
    Option BPEState :=
  let vocabList := match inputVocab with
    | some v => v
    | none => setOfList tokens
  let merges0 := vocabList.map (fun v => ((0 : Int), v))
  let tv0 := vocabList.map (fun v => (v, [v]))
  let maxV : Option Int :=
    match b.max_output_vocab, b.max_merges with
    | none, some m => some (m + merges0.length)
    | mv, _ => mv
  let inv0 : List (List Int × Int) := vocabList.map (fun v => ([v], v))
  let working := tokens.map (fun t =>
    (((inv0.find? (fun e => e.1 = [t])).map (fun e => e.2)).getD 0))
  if working.length < 2 then
    some { merges := merges0, token_values := tv0, input_vocab := vocabList,
           output_vocab := outRange merges0.length,
           max_output_vocab := maxV, max_merges := b.max_merges }
  else
    let next := maxIntList vocabList + 1
    let bound := maxV.getD 0
    match bpeLearnLoop bound (bound - merges0.length).toNat working merges0 tv0 next with
    | none => none
    | some (merges1, tv1) =>
      some { merges := merges1, token_values := tv1, input_vocab := vocabList,
             output_vocab := outRange merges1.length,
             max_output_vocab := maxV, max_merges := b.max_merges }

/-- `BPE::encode(tokens)` (bpe.cpp): replay the merges in learned
order, skipping the seeding merges `(0, v)`; the new token for the
merge at position `i` is `i + 1`. -/
def bpeEncode (b : BPEState) (tokens : List Int) : List Int :=
  b.merges.enum.foldl
    (fun acc im =>
      if im.2.1 = 0 then acc else merge_pairs acc im.2 ((im.1 : Int) + 1))
    tokens

/-- `BPE::decode(tokens)` (bpe.cpp): expand each token through
`token_values_`; unknown ids pass through unchanged. -/
def bpeDecode (b : BPEState) (tokens : List Int) : List Int :=
  tokens.foldl
    (fun acc t =>
      match mapFind b.token_values t with
      | some v => acc ++ v
      | none => acc ++ [t])
    []

/-- C1 (code bug): the universal round-trip law fails for BPE.  With
`max_output_vocab = 10`, training on `[3,1,3,1,3]` (vocabulary
`{1, 3}`) stores the expansion of the first learned merge under id
`merges_.size() = 3`, overwriting the expansion of the input symbol
`3`; decoding the encoded sequence then yields `[3,1,3,1,3,1]`, not the
input.  The failure does not depend on the modeled iteration order: the
two tied candidate pairs `(3,1)` and `(1,3)` both break the round
trip. -/
theorem bpe_roundtrip_failure :
    (bpeNew (some 10) none).bind
        (fun b => (bpeLearn b [3, 1, 3, 1, 3] none).map
          (fun st => bpeDecode st (bpeEncode st [3, 1, 3, 1, 3]))) =
      some [3, 1, 3, 1, 3, 1] ∧
    ([3, 1, 3, 1, 3, 1] : List Int) ≠ [3, 1, 3, 1, 3] := by
  exact ⟨by decide, by decide⟩

/-! ## Characterization of the merge selection (BPE learn loop) -/

/-- The adjacent pairs of a sequence, in order. -/
def pairsOf (w : List Int) : List (Int × Int) := w.zip w.tail

/-- The distinct elements of a list, in order of first occurrence. -/
def firstOccurrences (l : List (Int × Int)) : List (Int × Int) :=
  l.foldl (fun acc x => if x ∈ acc then acc else acc ++ [x]) []

lemma foldlFO_mem (l : List (Int × Int)) :
    ∀ (acc : List (Int × Int)) (x : Int × Int),
      (x ∈ l.foldl (fun acc x => if x ∈ acc then acc else acc ++ [x]) acc) ↔
        x ∈ acc ∨ x ∈ l := by
  induction l with
  | nil => intro acc x; simp
  | cons y t ih =>
    intro acc x
    simp only [List.foldl_cons]
    by_cases hy : y ∈ acc
    · rw [if_pos hy, ih]
      simp only [List.mem_cons]
      constructor
      · rintro (h | h)
        · exact Or.inl h
        · exact Or.inr (Or.inr h)
      · rintro (h | h | h)
        · exact Or.inl h
        · exact Or.inl (h ▸ hy)
        · exact Or.inr h
    · rw [if_neg hy, ih]
      simp only [List.mem_append, List.mem_singleton, List.mem_cons]
      tauto

lemma foldlFO_nodup (l : List (Int × Int)) :
    ∀ (acc : List (Int × Int)), acc.Nodup →
      (l.foldl (fun acc x => if x ∈ acc then acc else acc ++ [x]) acc).Nodup := by
  induction l with
  | nil => intro acc h; simpa using h
  | cons y t ih =>
    intro acc h
    simp only [List.foldl_cons]
    by_cases hy : y ∈ acc
    · rw [if_pos hy]; exact ih acc h
    · rw [if_neg hy]
      refine ih _ ?_
      simpa [List.nodup_append] using ⟨h, hy⟩

lemma mem_firstOccurrences (l : List (Int × Int)) (x : Int × Int) :
    x ∈ firstOccurrences l ↔ x ∈ l := by
  rw [firstOccurrences, foldlFO_mem]
  simp

lemma nodup_firstOccurrences (l : List (Int × Int)) :
    (firstOccurrences l).Nodup :=
  foldlFO_nodup l [] List.nodup_nil

/-- Number of occurrences of a pair in a list of pairs. -/
def countPair : List (Int × Int) → (Int × Int) → Nat
  | [], _ => 0
  | r :: rest, q => (if r = q then 1 else 0) + countPair rest q

lemma countPair_append (pl l2 : List (Int × Int)) (q : Int × Int) :
    countPair (pl ++ l2) q = countPair pl q + countPair l2 q := by
  induction pl with
  | nil => simp [countPair]
  | cons r rest ih => simp [countPair, ih]; omega

lemma countPair_eq_zero_of_not_mem (pl : List (Int × Int)) (q : Int × Int)
    (h : q ∉ pl) : countPair pl q = 0 := by
  induction pl with
  | nil => rfl
  | cons r rest ih =>
    have hr : r ≠ q := fun he => h (he ▸ List.mem_cons_self _ _)
    simp only [countPair, if_neg hr]
    simpa using ih (fun hm => h (List.mem_cons_of_mem _ hm))

lemma bumpPair_map_mem (cnt : Int × Int → Nat) (x : Int × Int) :
    ∀ keys : List (Int × Int), keys.Nodup → x ∈ keys →
      bumpPair (keys.map (fun q => (q, cnt q))) x =
        keys.map (fun q => (q, if q = x then cnt q + 1 else cnt q)) := by
  intro keys
  induction keys with
  | nil => intro _ hx; cases hx
  | cons k rest ih =>
    intro hnd hx
    simp only [List.map_cons, bumpPair]
    by_cases hk : k = x
    · rw [if_pos hk, hk, if_pos rfl]
      have hxnotin : x ∉ rest := by
        subst hk; exact (List.nodup_cons.mp hnd).1
      congr 1
      apply List.map_congr_left
      intro q hq
      have : q ≠ x := fun h => hxnotin (h ▸ hq)
      rw [if_neg this]
    · rw [if_neg hk, if_neg hk]
      have hx' : x ∈ rest := by
        rcases List.mem_cons.mp hx with h | h
        · exact absurd h.symm hk
        · exact h
      rw [ih (List.nodup_cons.mp hnd).2 hx']

lemma bumpPair_map_not_mem (cnt : Int × Int → Nat) (x : Int × Int) :
    ∀ keys : List (Int × Int), x ∉ keys →
      bumpPair (keys.map (fun q => (q, cnt q))) x =
        keys.map (fun q => (q, cnt q)) ++ [(x, 1)] := by
  intro keys
  induction keys with
  | nil => intro _; rfl
  | cons k rest ih =>
    intro hx
    simp only [List.map_cons, bumpPair]
    have hk : k ≠ x := fun h => hx (h ▸ List.mem_cons_self _ _)
    rw [if_neg hk, ih (fun h => hx (List.mem_cons_of_mem _ h))]
    simp

/-- The statistics accumulator holds each pair seen so far, in first
occurrence order, with its exact occurrence count. -/
lemma foldl_bump_repr (pl : List (Int × Int)) :
    pl.foldl bumpPair [] =
      (firstOccurrences pl).map (fun q => (q, countPair pl q)) := by
  induction pl using List.reverseRecOn with
  | nil => rfl
  | append_singleton pl x ih =>
    rw [List.foldl_append, List.foldl_cons, List.foldl_nil, ih]
    have hfo : firstOccurrences (pl ++ [x]) =
        if x ∈ firstOccurrences pl then firstOccurrences pl
        else firstOccurrences pl ++ [x] := by
      rw [firstOccurrences, firstOccurrences, List.foldl_append, List.foldl_cons,
        List.foldl_nil]
    by_cases hx : x ∈ firstOccurrences pl
    · rw [bumpPair_map_mem (fun q => countPair pl q) x _ (nodup_firstOccurrences pl) hx,
        hfo, if_pos hx]
      apply List.map_congr_left
      intro q hq
      by_cases hqx : q = x
      · rw [if_pos hqx, hqx, countPair_append]
        simp [countPair]
      · rw [if_neg hqx, countPair_append]
        have : countPair [x] q = 0 := by
          simp [countPair, if_neg (fun h : x = q => hqx h.symm)]
        simp [this]
    · rw [bumpPair_map_not_mem (fun q => countPair pl q) x _ hx, hfo, if_neg hx,
        List.map_append]
      have hxpl : x ∉ pl := fun h => hx ((mem_firstOccurrences pl x).mpr h)
      congr 1
      · apply List.map_congr_left
        intro q hq
        rw [countPair_append]
        have hqx : q ≠ x := fun h => hx (h ▸ hq)
        have : countPair [x] q = 0 := by
          simp [countPair, if_neg (fun h : x = q => hqx h.symm)]
        simp [this]
      · simp only [List.map_cons, List.map_nil]
        rw [countPair_append, countPair_eq_zero_of_not_mem pl x hxpl]
        simp [countPair]

/-- `std::max_element` with the strict comparator keeps the first
element attaining the maximum: characterization of the fold, phrased
over a key list mapped to (key, count) entries. -/
lemma foldl_max_find (cnt : Int × Int → Nat) :
    ∀ (keys : List (Int × Int)) (q0 : Int × Int),
      ∃ p, ((keys.map (fun q => (q, cnt q))).foldl
              (fun best x => if best.2 < x.2 then x else best) (q0, cnt q0)) = (p, cnt p) ∧
        (p = q0 ∨ p ∈ keys) ∧ cnt q0 ≤ cnt p ∧ (∀ q ∈ keys, cnt q ≤ cnt p) ∧
        (q0 :: keys).find? (fun q => decide (cnt q = cnt p)) = some p := by
  intro keys
  induction keys with
  | nil =>
    intro q0
    refine ⟨q0, rfl, Or.inl rfl, le_refl _, by simp, ?_⟩
    rw [List.find?_cons_of_pos]
    simp
  | cons k rest ih =>
    intro q0
    simp only [List.map_cons, List.foldl_cons]
    by_cases h : cnt q0 < cnt k
    · rw [if_pos h]
      obtain ⟨p, hfold, hmem, hle, hall, hfind⟩ := ih k
      refine ⟨p, hfold, ?_, ?_, ?_, ?_⟩
      · rcases hmem with h' | h'
        · exact Or.inr (h' ▸ List.mem_cons_self _ _)
        · exact Or.inr (List.mem_cons_of_mem _ h')
      · exact le_trans (le_of_lt h) hle
      · intro q hq
        rcases List.mem_cons.mp hq with h' | h'
        · exact h' ▸ hle
        · exact hall q h'
      · rw [List.find?_cons_of_neg]
        · exact hfind
        · simp only [decide_eq_true_eq]
          omega
    · rw [if_neg h]
      have hk : cnt k ≤ cnt q0 := le_of_not_lt h
      obtain ⟨p, hfold, hmem, hle, hall, hfind⟩ := ih q0
      refine ⟨p, hfold, ?_, hle, ?_, ?_⟩
      · rcases hmem with h' | h'
        · exact Or.inl h'
        · exact Or.inr (List.mem_cons_of_mem _ h')
      · intro q hq
        rcases List.mem_cons.mp hq with h' | h'
        · exact h' ▸ le_trans hk hle
        · exact hall q h'
      · by_cases hq0 : cnt q0 = cnt p
        · have : (q0 :: rest).find? (fun q => decide (cnt q = cnt p)) = some q0 := by
            rw [List.find?_cons_of_pos]
            simpa using hq0
          have hpq0 : p = q0 := by
            rw [this] at hfind
            exact (Option.some_injective _ hfind).symm
          subst hpq0
          rw [List.find?_cons_of_pos]
          simp
        · have hfind' : rest.find? (fun q => decide (cnt q = cnt p)) = some p := by
            rw [List.find?_cons_of_neg] at hfind
            · exact hfind
            · simpa using hq0
          rw [List.find?_cons_of_neg, List.find?_cons_of_neg]
          · exact hfind'
          · simp only [decide_eq_true_eq]
            omega
          · simpa using hq0

/-- On a nonempty sequence of physically realizable length the `size_t`
loop bound of `get_stats` is exactly `length - 1` and the function
returns the accumulated adjacent-pair statistics. -/
lemma get_stats_of_ne_nil (w : List Int) (hne : w ≠ []) :
    get_stats w = some (statsList w) := by
  have hlen : 1 ≤ w.length := List.length_pos.mpr hne
  have hb : sizeSub1 w.length = w.length - 1 := by
    unfold sizeSub1
    rw [if_neg (by omega)]
  unfold get_stats
  simp only [hb]
  by_cases h1 : w.length - 1 = 0
  · have : w.length = 1 := by omega
    obtain ⟨a, rfl⟩ := List.length_eq_one.mp this
    simp [statsList]
  · rw [if_neg h1, if_pos (by omega)]

/-- C5: in each iteration of the BPE merge loop the selected pair
maximizes the occurrence count over the adjacent pairs of the current
working sequence, ties going to the pair occurring first in the
sequence (the statistics map iterates in insertion order, i.e. first
occurrence order; `std::max_element` with a strict comparator keeps the
first maximum); the loop makes no merge and stops when no pairs exist
or when the maximal count equals 1, and otherwise continues on the
merged sequence. -/
theorem bpe_merge_selection (w : List Int) (p : Int × Int) (c : Nat)
    (hmax : maxElement (statsList w) = some (p, c)) :
    ((p, c) ∈ statsList w ∧ c = countPair (pairsOf w) p ∧
      (∀ e ∈ statsList w, e.2 ≤ c) ∧
      (firstOccurrences (pairsOf w)).find?
          (fun q => decide (countPair (pairsOf w) q = c)) = some p) ∧
    (∀ maxV fuel merges tv next, (merges.length : Int) < maxV →
        w ≠ [] →
        (c = 1 → bpeLearnLoop maxV (fuel + 1) w merges tv next = some (merges, tv)) ∧
        (c ≠ 1 → ∃ tv', bpeLearnLoop maxV (fuel + 1) w merges tv next =
            bpeLearnLoop maxV fuel (merge_pairs w p next) (merges ++ [p]) tv'
              (next + 1))) ∧
    (∀ maxV fuel merges tv next (w' : List Int), (merges.length : Int) < maxV →
        w' ≠ [] → statsList w' = [] →
        bpeLearnLoop maxV (fuel + 1) w' merges tv next = some (merges, tv)) := by
  have hrepr : statsList w =
      (firstOccurrences (pairsOf w)).map (fun q => (q, countPair (pairsOf w) q)) :=
    foldl_bump_repr (pairsOf w)
  refine ⟨?_, ?_, ?_⟩
  · -- selection characterization
    rcases hkeys : firstOccurrences (pairsOf w) with _ | ⟨k0, rest⟩
    · rw [hrepr, hkeys] at hmax
      simp [maxElement] at hmax
    · obtain ⟨p', hfold, hmem, hle0, hall, hfind⟩ :=
        foldl_max_find (countPair (pairsOf w)) rest k0
      have hme : maxElement (statsList w) = some (p', countPair (pairsOf w) p') := by
        rw [hrepr, hkeys]
        simp only [List.map_cons, maxElement]
        rw [hfold]
      rw [hmax] at hme
      have hpp : p = p' ∧ c = countPair (pairsOf w) p' := by
        have := Option.some_injective _ hme
        exact ⟨congrArg Prod.fst this, congrArg Prod.snd this⟩
      obtain ⟨rfl, hc⟩ : p = p' ∧ c = countPair (pairsOf w) p := by
        refine ⟨hpp.1, ?_⟩
        rw [hpp.2, hpp.1]
      refine ⟨?_, hc, ?_, ?_⟩
      · rw [hrepr, hkeys]
        have hpmem : p ∈ k0 :: rest := by
          rcases hmem with h | h
          · exact h ▸ List.mem_cons_self _ _
          · exact List.mem_cons_of_mem _ h
        rw [hc]
        exact List.mem_map_of_mem _ hpmem
      · intro e he
        rw [hrepr, hkeys] at he
        obtain ⟨q, hq, rfl⟩ := List.mem_map.mp he
        rcases List.mem_cons.mp hq with h | h
        · subst h; rw [hc]; exact hle0
        · rw [hc]; exact hall q h
      · rw [hc]
        exact hfind
  · -- stop / continue behavior when a maximal pair exists
    intro maxV fuel merges tv next hguard hne
    have hget := get_stats_of_ne_nil w hne
    constructor
    · intro hc1
      subst hc1
      have hbody : bpeLearnBody w merges tv next = some none := by
        simp only [bpeLearnBody, hget, hmax]
        simp
      rw [bpeLearnLoop_succ]
      simp only [bpeLearnStep, if_pos hguard, hbody]
    · intro hc1
      refine ⟨mapSet (mapGetD (mapGetD tv p.1).2 p.2).2 (((merges ++ [p]).length : Int))
          ((mapGetD tv p.1).1 ++ (mapGetD (mapGetD tv p.1).2 p.2).1), ?_⟩
      have hbody : bpeLearnBody w merges tv next =
          some (some (merge_pairs w p next, merges ++ [p],
            mapSet (mapGetD (mapGetD tv p.1).2 p.2).2 (((merges ++ [p]).length : Int))
              ((mapGetD tv p.1).1 ++ (mapGetD (mapGetD tv p.1).2 p.2).1), next + 1)) := by
        simp only [bpeLearnBody, hget, hmax, if_neg hc1]
      rw [bpeLearnLoop_succ]
      simp only [bpeLearnStep, if_pos hguard, hbody]
  · -- stop behavior when no pairs exist
    intro maxV fuel merges tv next w' hguard hne hstats
    have hget := get_stats_of_ne_nil w' hne
    have hbody : bpeLearnBody w' merges tv next = some none := by
      simp only [bpeLearnBody, hget, hstats, maxElement]
    rw [bpeLearnLoop_succ]
    simp only [bpeLearnStep, if_pos hguard, hbody]

/-- Witness for `bpe_merge_selection` at the working sequence
`[1,2,1,2]`: the selected pair is `(1,2)` with count 2, and it is the
first maximal pair in first-occurrence order. -/
theorem bpe_merge_selection_witness :
    ((((1 : Int), (2 : Int)), 2) ∈ statsList [1, 2, 1, 2] ∧
      (firstOccurrences (pairsOf [1, 2, 1, 2])).find?
          (fun q => decide (countPair (pairsOf [1, 2, 1, 2]) q = 2)) = some (1, 2)) ∧
    bpeLearnLoop 5 3 [1, 2, 1, 2] [] [] 3 =
      bpeLearnLoop 5 2 (merge_pairs [1, 2, 1, 2] (1, 2) 3) [(1, 2)]
        [(1, []), (2, [])] 4 := by
  have h := bpe_merge_selection [1, 2, 1, 2] (1, 2) 2 (by decide)
  refine ⟨⟨h.1.1, h.1.2.2.2⟩, ?_⟩
  decide

/-! ## The trie from `lz.cpp`

A C++ trie node is identified by its path from the root, so the trie is
modeled as an association list from paths to `(value, is_end)` pairs.
The root (path `[]`) is always present.  `Trie::insert` walks the key
and creates any missing intermediate node, so every constructible trie
has a prefix-closed node set; consequently looking a node up by its
full path is the same as walking the child edges as the C++ code
does. -/

structure Trie where
  nodes : List (List Int × Int × Bool)
deriving DecidableEq, Repr

/-- A freshly constructed trie: only the root node, carrying the
default value `EMPTY_TOKEN` and not marked terminal. -/
def Trie.empty : Trie := ⟨[([], EMPTY_TOKEN, false)]⟩

/-- The node at a given path, if present. -/
def Trie.findNode (t : Trie) (p : List Int) : Option (Int × Bool) :=
  (t.nodes.find? (fun e => e.1 = p)).map (fun e => e.2)

/-- Create the node at path `p` if missing (the
`children[token] = make_unique<Node>()` step of `Trie::insert`). -/
def insertPath (nodes : List (List Int × Int × Bool)) (p : List Int) :
    List (List Int × Int × Bool) :=
  if (nodes.find? (fun e => e.1 = p)).isSome then nodes
  else nodes ++ [(p, EMPTY_TOKEN, false)]

/-- Overwrite (or create) the node at path `p` with value `v` and mark
it terminal (the `current->value = value; current->is_end = true` step
of `Trie::insert`). -/
def setNode (nodes : List (List Int × Int × Bool)) (p : List Int) (v : Int) :
    List (List Int × Int × Bool) :=
  match nodes with
  | [] => [(p, v, true)]
  | e :: rest => if e.1 = p then (p, v, true) :: rest else e :: setNode rest p v

/-- The walking part of `Trie::insert`: create the child node for each
symbol of the key in turn (`pathSoFar` is the path walked so far). -/
def insertGo (nodes : List (List Int × Int × Bool)) (pathSoFar : List Int) :
    List Int → List (List Int × Int × Bool)
  | [] => nodes
  | x :: rest => insertGo (insertPath nodes (pathSoFar ++ [x])) (pathSoFar ++ [x]) rest

/-- `Trie::insert(key, value)`: walk the key creating missing nodes,
then overwrite the final node's value and terminal mark. -/
def Trie.insert (t : Trie) (key : List Int) (v : Int) : Trie :=
  ⟨setNode (insertGo t.nodes [] key) key v⟩

/-- `Trie::get(key)`: the value at a terminal node, `none` (a thrown
`key not found`) when the walk fails or the node is not terminal. -/
def Trie.get (t : Trie) (key : List Int) : Option Int :=
  match t.findNode key with
  | some (v, true) => some v
  | _ => none

/-- `Trie::contains(key)`. -/
def Trie.containsKey (t : Trie) (key : List Int) : Bool :=
  (t.get key).isSome

/-- `Trie::size()`: the number of terminal nodes. -/
def Trie.size (t : Trie) : Nat :=
  t.nodes.countP (fun e => e.2.2)

/-- The walking loop of `Trie::longest_prefix`: `pfx` is the path
walked so far, `val` the value of the deepest terminal seen so far
(initially `EMPTY_TOKEN`; the root's own terminal mark is never
consulted).  At each symbol, stop if the child edge is missing,
otherwise descend and record the node's value whenever it is
terminal. -/
def lpGo (t : Trie) (pfx : List Int) (val : Int) : List Int → List Int × Int
  | [] => (pfx, val)
  | x :: rest =>
    match t.findNode (pfx ++ [x]) with
    | none => (pfx, val)
    | some (v, e) => lpGo t (pfx ++ [x]) (if e then v else val) rest

/-- `Trie::longest_prefix(sequence)` from lz.cpp. -/
def Trie.longestPrefix (t : Trie) (seq : List Int) : List Int × Int :=
  lpGo t [] EMPTY_TOKEN seq

/-! ### Specification-side description of `longest_prefix`

Modelled from the spec's words: the matched key is the longest prefix
of the query that traces existing nodes; the value is the value of the
deepest terminal nonempty prefix visited, or the no-token sentinel. -/

/-- All nonempty prefixes of `seq` up to length `k` are nodes of `t`. -/
def walkableB (t : Trie) (seq : List Int) (k : Nat) : Bool :=
  (List.range k).all (fun j => (t.findNode (seq.take (j + 1))).isSome)

/-- Length of the longest prefix of `seq` that traces existing
nodes. -/
def walkLen (t : Trie) (seq : List Int) : Nat :=
  Nat.findGreatest (fun k => walkableB t seq k = true) seq.length

/-- Whether the node at path `p` is terminal. -/
def termB (t : Trie) (p : List Int) : Bool :=
  match t.findNode p with
  | some (_, e) => e
  | none => false

/-- The value stored at path `p` (sentinel when absent). -/
def valueAt (t : Trie) (p : List Int) : Int :=
  match t.findNode p with
  | some (v, _) => v
  | none => EMPTY_TOKEN

/-- Length of the deepest terminal nonempty prefix among the walked
ones (0 when there is none). -/
def deepTermLen (t : Trie) (seq : List Int) : Nat :=
  Nat.findGreatest (fun j => 0 < j ∧ termB t (seq.take j) = true) (walkLen t seq)

/-- Modelled from the spec: `longest_prefix` returns the longest
node-tracing prefix together with the deepest visited terminal's value
(sentinel if no nonempty walked prefix is terminal). -/
def lpSpecFun (t : Trie) (seq : List Int) : List Int × Int :=
  (seq.take (walkLen t seq),
   if deepTermLen t seq = 0 then EMPTY_TOKEN
   else valueAt t (seq.take (deepTermLen t seq)))

lemma walkableB_eq_true (t : Trie) (seq : List Int) (k : Nat) :
    walkableB t seq k = true ↔
      ∀ j, 1 ≤ j → j ≤ k → (t.findNode (seq.take j)).isSome = true := by
  unfold walkableB
  rw [List.all_eq_true]
  constructor
  · intro h j h1 hk
    have := h (j - 1) (List.mem_range.mpr (by omega))
    have hj : j - 1 + 1 = j := by omega
    rwa [hj] at this
  · intro h j hj
    have := List.mem_range.mp hj
    exact h (j + 1) (by omega) (by omega)

lemma findGreatest_congr (P Q : Nat → Prop) [DecidablePred P] [DecidablePred Q]
    (b : Nat) (h : ∀ j, j ≤ b → (P j ↔ Q j)) :
    Nat.findGreatest P b = Nat.findGreatest Q b := by
  induction b with
  | zero => rfl
  | succ n ih =>
    rw [Nat.findGreatest_succ, Nat.findGreatest_succ]
    by_cases hp : P (n + 1)
    · rw [if_pos hp, if_pos ((h (n + 1) le_rfl).mp hp)]
    · rw [if_neg hp, if_neg (fun hq => hp ((h (n + 1) le_rfl).mpr hq)),
        ih (fun j hj => h j (le_trans hj (Nat.le_succ n)))]

lemma lpGo_spec (t : Trie) :
    ∀ (rest pfx : List Int) (val : Int),
      (∀ j, 1 ≤ j → j ≤ pfx.length → (t.findNode (pfx.take j)).isSome = true) →
      (val =
        if Nat.findGreatest (fun j => 0 < j ∧ termB t (pfx.take j) = true)
            pfx.length = 0 then EMPTY_TOKEN
        else valueAt t (pfx.take (Nat.findGreatest
            (fun j => 0 < j ∧ termB t (pfx.take j) = true) pfx.length))) →
      lpGo t pfx val rest = lpSpecFun t (pfx ++ rest) := by
  intro rest
  induction rest with
  | nil =>
    intro pfx val hn hv
    rw [List.append_nil]
    have hwalk : walkLen t pfx = pfx.length := by
      refine le_antisymm (Nat.findGreatest_le _) (Nat.le_findGreatest le_rfl ?_)
      rw [walkableB_eq_true]
      exact hn
    simp only [lpGo, lpSpecFun, deepTermLen, hwalk, List.take_length]
    rw [← hv]
  | cons x rest ih =>
    intro pfx val hn hv
    have hassoc : pfx ++ x :: rest = (pfx ++ [x]) ++ rest := by simp
    have hlen1 : (pfx ++ [x]).length = pfx.length + 1 := by simp
    cases hfind : t.findNode (pfx ++ [x]) with
    | none =>
      simp only [lpGo, hfind]
      have htakele : ∀ j, j ≤ pfx.length → (pfx ++ x :: rest).take j = pfx.take j :=
        fun j hj => List.take_append_of_le_length hj
      have htake1 : (pfx ++ x :: rest).take (pfx.length + 1) = pfx ++ [x] := by
        rw [hassoc]
        exact List.take_left' hlen1
      have hwalk : walkLen t (pfx ++ x :: rest) = pfx.length := by
        rw [walkLen, Nat.findGreatest_eq_iff]
        refine ⟨by simp, ?_, ?_⟩
        · intro _
          rw [walkableB_eq_true]
          intro j h1 hj
          rw [htakele j hj]
          exact hn j h1 hj
        · intro n hlt hle hP
          rw [walkableB_eq_true] at hP
          have := hP (pfx.length + 1) (by omega) (by omega)
          rw [htake1, hfind] at this
          simp at this
      have hPcongr :
          Nat.findGreatest (fun j => 0 < j ∧ termB t ((pfx ++ x :: rest).take j) = true)
              pfx.length =
            Nat.findGreatest (fun j => 0 < j ∧ termB t (pfx.take j) = true)
              pfx.length := by
        apply findGreatest_congr
        intro j hj
        rw [htakele j hj]
      simp only [lpSpecFun, deepTermLen, hwalk, hPcongr]
      rw [htakele pfx.length le_rfl, List.take_length]
      have hDle : Nat.findGreatest (fun j => 0 < j ∧ termB t (pfx.take j) = true)
          pfx.length ≤ pfx.length := Nat.findGreatest_le _
      rw [htakele _ hDle, ← hv]
    | some ve =>
      obtain ⟨v, e⟩ := ve
      simp only [lpGo, hfind]
      rw [hassoc]
      apply ih (pfx ++ [x]) (if e then v else val)
      · intro j h1 hj
        rw [hlen1] at hj
        by_cases hj' : j ≤ pfx.length
        · rw [List.take_append_of_le_length hj']
          exact hn j h1 hj'
        · have hje : j = pfx.length + 1 := by omega
          rw [hje, ← hlen1, List.take_length, hfind]
          rfl
      · rw [hlen1, Nat.findGreatest_succ]
        have htfull : (pfx ++ [x]).take (pfx.length + 1) = pfx ++ [x] := by
          rw [← hlen1, List.take_length]
        have hPcongr :
            Nat.findGreatest (fun j => 0 < j ∧ termB t ((pfx ++ [x]).take j) = true)
                pfx.length =
              Nat.findGreatest (fun j => 0 < j ∧ termB t (pfx.take j) = true)
                pfx.length := by
          apply findGreatest_congr
          intro j hj
          rw [List.take_append_of_le_length hj]
        cases e with
        | true =>
          have hcondT : 0 < pfx.length + 1 ∧
              termB t ((pfx ++ [x]).take (pfx.length + 1)) = true := by
            refine ⟨by omega, ?_⟩
            rw [htfull]
            simp [termB, hfind]
          rw [if_pos hcondT]
          have h1 : ¬(pfx.length + 1 = 0) := by omega
          rw [if_neg h1, htfull]
          simp [valueAt, hfind]
        | false =>
          have hcondF : ¬(0 < pfx.length + 1 ∧
              termB t ((pfx ++ [x]).take (pfx.length + 1)) = true) := by
            intro hc
            have := hc.2
            rw [htfull] at this
            simp [termB, hfind] at this
          rw [if_neg hcondF, hPcongr]
          have hDle : Nat.findGreatest (fun j => 0 < j ∧ termB t (pfx.take j) = true)
              pfx.length ≤ pfx.length := Nat.findGreatest_le _
          rw [List.take_append_of_le_length hDle]
          simpa using hv

/-- C3 (amended): `longest_prefix(seq)` returns the longest prefix of
`seq` that traces existing nodes in the trie — terminal or not — as the
matched key, together with the value of the deepest terminal nonempty
prefix visited, or the no-token sentinel when no nonempty visited
prefix is terminal; the root's (empty key's) terminal mark is never
consulted. -/
theorem trie_longest_match_spec (t : Trie) (seq : List Int) :
    t.longestPrefix seq = lpSpecFun t seq := by
  have h := lpGo_spec t seq [] EMPTY_TOKEN
    (fun j h1 hj => by simp at hj; omega)
    (by simp [Nat.findGreatest_zero])
  simpa [Trie.longestPrefix] using h

/-- C3 (counterexample to the claim as stated): in the trie holding
only the key `[1,2]`, walking `[1]` visits no terminal at all (neither
`[1]` nor the empty key is a terminal), yet `longest_prefix` returns
the matched key `[1]`, not the empty key required by the claim. -/
theorem trie_longest_match_counterexample :
    Trie.longestPrefix (Trie.insert Trie.empty [1, 2] 9) [1] = ([1], EMPTY_TOKEN) ∧
    Trie.get (Trie.insert Trie.empty [1, 2] 9) [1] = none ∧
    Trie.get (Trie.insert Trie.empty [1, 2] 9) [] = none ∧
    ([1] : List Int) ≠ [] := by
  refine ⟨?_, ?_, ?_, ?_⟩ <;> decide

/-! ## The LZ coder (`class LZCoder`, lz.cpp)

`std::set<int>` fields are modeled as strictly sorted `List Int` whose
head is `*s.begin()` (the minimum); the `input_vocab` constructor
argument is the ascending element list of the given set.  The
`std::map` `encoded_vocab` is modeled as an association list (its
iteration order is never used, only keyed lookups). -/

/-- The error kinds thrown by the LZ coder, one per distinct
`std::runtime_error` message in lz.cpp. -/
inductive LZErr where
  | noUnusedTokens
  | dictionaryFull
  | learningDisabled
  | outputVocabTooSmall
  | tokenNotFound
  | assertionFailed
deriving DecidableEq, Repr

deriving instance DecidableEq for Except

/-- State of an `lz::LZCoder`. -/
structure LZCoder where
  vocab_size : Int
  input_vocab : List Int
  unused_tokens : List Int
  encoded_vocab : List (Int × List Int)
  token_map : Trie
deriving DecidableEq, Repr

/-- `*s.begin()` on the ordered set: its smallest element.  Junk value
`0` on the empty set (dereferencing `begin()` of an empty set is
undefined behavior; every call site guards nonemptiness). -/
def get_begin (s : List Int) : Int := s.headD 0

/-- `LZCoder::_add_new_token(prefix, token)`:
`encoded_vocab[token] = prefix; token_map.insert(prefix, token);
unused_tokens.erase(token)`. -/
def LZCoder.addNewToken (st : LZCoder) (pfx : List Int) (token : Int) : LZCoder :=
  { st with
    encoded_vocab := mapSet st.encoded_vocab token pfx
    token_map := st.token_map.insert pfx token
    unused_tokens := setErase st.unused_tokens token }

/-- The `LZCoder` constructor: insert the empty key with the
`EMPTY_TOKEN` sentinel; when `output_vocab_size > 0`, check
`|input_vocab| ≤ output_vocab_size` (an `AssertionError` otherwise),
fill `unused_tokens` with `{0 .. output_vocab_size-1}`, register a
singleton key for each input symbol using the smallest unused id, and
store `vocab_size = output_vocab_size + 1` (accounting for the empty
token). -/
def LZCoder.init (output_vocab_size : Int) (input_vocab : List Int) :
    Except LZErr LZCoder :=
  let st0 : LZCoder :=
    { vocab_size := -1
      input_vocab := input_vocab
      unused_tokens := []
      encoded_vocab := mapSet [] EMPTY_TOKEN []
      token_map := Trie.insert Trie.empty [] EMPTY_TOKEN }
  if output_vocab_size > 0 then
    if (input_vocab.length : Int) > output_vocab_size then .error .assertionFailed
    else
      let st1 := { st0 with
        unused_tokens := (List.range output_vocab_size.toNat).map (fun i : Nat => (i : Int)) }
      let st2 := input_vocab.foldl
        (fun st c => st.addNewToken [c] (get_begin st.unused_tokens)) st1
      .ok { st2 with vocab_size := output_vocab_size + 1 }
  else .ok st0

/-- `LZCoder::update_vocab(to_encode)`: register a singleton key for
each not-yet-known symbol with the smallest unused id; fails when no
unused id exists, or — after the insertion — when the trie has reached
`vocab_size`. -/
def LZCoder.update_vocab : LZCoder → List Int → Except LZErr LZCoder
  | st, [] => .ok st
  | st, c :: rest =>
    if c ∈ st.input_vocab then st.update_vocab rest
    else if st.unused_tokens.isEmpty then .error .noUnusedTokens
    else
      let st1 := st.addNewToken [c] (get_begin st.unused_tokens)
      let st2 : LZCoder := { st1 with input_vocab := setInsert st1.input_vocab c }
      if st2.vocab_size > 0 ∧ Int.ofNat st2.token_map.size ≥ st2.vocab_size then
        .error .outputVocabTooSmall
      else st2.update_vocab rest

/-- `LZCoder::_propose_next_token(to_encode, learn)`: the longest
prefix match; when learning, the match is shorter than the input and
the trie still has room, propose the extension by one symbol with the
smallest unused id (keeping the matched token when no id is
unused). -/
def LZCoder.proposeNextToken (st : LZCoder) (to_encode : List Int) (learn : Bool) :
    List Int × Int :=
  let r := st.token_map.longestPrefix to_encode
  if learn ∧ r.1.length < to_encode.length ∧
      (st.vocab_size < 0 ∨ Int.ofNat st.token_map.size < st.vocab_size) then
    (r.1 ++ [to_encode.getD r.1.length 0],
     if st.unused_tokens.isEmpty then r.2 else get_begin st.unused_tokens)
  else r

/-- `LZCoder::encode_one_token(to_encode, learn)`: accept the proposal
when its token is already assigned; otherwise fail `LearningDisabled`
without the learn flag, `DictionaryFull` when the trie is at capacity,
and commit the proposal with the smallest unused id otherwise. -/
def LZCoder.encode_one_token (st : LZCoder) (to_encode : List Int) (learn : Bool) :
    Except LZErr ((List Int × Int) × LZCoder) :=
  let r := st.proposeNextToken to_encode learn
  if (mapFind st.encoded_vocab r.2).isSome then .ok (r, st)
  else if ¬ learn then .error .learningDisabled
  else if st.vocab_size > 0 ∧ Int.ofNat st.token_map.size ≥ st.vocab_size then
    .error .dictionaryFull
  else if st.unused_tokens.isEmpty then .error .noUnusedTokens
  else
    .ok ((r.1, get_begin st.unused_tokens),
      st.addNewToken r.1 (get_begin st.unused_tokens))

/-- `LZCoder::decode_one_token`. -/
def LZCoder.decode_one_token (st : LZCoder) (t : Int) : Except LZErr (List Int) :=
  match mapFind st.encoded_vocab t with
  | some v => .ok v
  | none => .error .tokenNotFound

/-- `LZCoder::decode`. -/
def LZCoder.decode (st : LZCoder) : List Int → Except LZErr (List Int)
  | [] => .ok []
  | t :: rest =>
    match mapFind st.encoded_vocab t with
    | none => .error .tokenNotFound
    | some v =>
      match st.decode rest with
      | .error e => .error e
      | .ok out => .ok (v ++ out)

/-- One iteration of the `LZCoder::encode` loop: encode one token from
the remaining suffix; an empty prefix fails (`DictionaryFull` when
learning, `LearningDisabled` otherwise); otherwise emit the token and
continue (`cont`) on the suffix with the matched prefix dropped. -/
def lzEncodeStep
    (cont : LZCoder → List Int → Bool → Except LZErr (List Int × LZCoder))
    (st : LZCoder) (remaining : List Int) (learn : Bool) :
    Except LZErr (List Int × LZCoder) :=
  match remaining with
  | [] => .ok ([], st)
  | x :: rest =>
    match LZCoder.encode_one_token st (x :: rest) learn with
    | .error e => .error e
    | .ok (r, st') =>
      if r.1.isEmpty then
        .error (if learn then LZErr.dictionaryFull else LZErr.learningDisabled)
      else
        match cont st' ((x :: rest).drop r.1.length) learn with
        | .error e => .error e
        | .ok (out, st2) => .ok (r.2 :: out, st2)

/-- The `LZCoder::encode` loop with fuel; each iteration consumes at
least one symbol (an empty prefix aborts), so fuel `remaining.length`
is exact and the base case with a nonempty remainder is unreachable. -/
def lzEncodeGo (fuel : Nat) :
    LZCoder → List Int → Bool → Except LZErr (List Int × LZCoder) :=
  Nat.rec (motive := fun _ => LZCoder → List Int → Bool →
      Except LZErr (List Int × LZCoder))
    (fun st _ _ => .ok ([], st))
    (fun _ ih => lzEncodeStep ih)
    fuel

lemma lzEncodeGo_succ (fuel : Nat) :
    lzEncodeGo (fuel + 1) = lzEncodeStep (lzEncodeGo fuel) := by
  unfold lzEncodeGo
  rfl

/-- `LZCoder::encode(to_encode, learn)`: iterate `encode_one_token` on
the remaining suffix, collecting the emitted ids; the final coder state
is returned alongside (the C++ method mutates in place). -/
def LZCoder.encode (st : LZCoder) (to_encode : List Int) (learn : Bool) :
    Except LZErr (List Int × LZCoder) :=
  lzEncodeGo to_encode.length st to_encode learn

/-! ### Error semantics of `LZCoder::encode` (C7) -/

lemma lzEncodeGo_nil (fuel : Nat) (st : LZCoder) (learn : Bool) :
    lzEncodeGo fuel st [] learn = .ok ([], st) := by
  cases fuel with
  | zero => rfl
  | succ n => rw [lzEncodeGo_succ]; rfl

lemma lzEncodeGo_congr :
    ∀ (n : Nat) (st : LZCoder) (remaining : List Int) (learn : Bool) (f1 f2 : Nat),
      remaining.length ≤ f1 → remaining.length ≤ f2 → remaining.length ≤ n →
      lzEncodeGo f1 st remaining learn = lzEncodeGo f2 st remaining learn := by
  intro n
  induction n with
  | zero =>
    intro st remaining learn f1 f2 _ _ h0
    have : remaining = [] := List.eq_nil_of_length_eq_zero (by omega)
    subst this
    rw [lzEncodeGo_nil, lzEncodeGo_nil]
  | succ n ih =>
    intro st remaining learn f1 f2 h1 h2 h0
    cases remaining with
    | nil => rw [lzEncodeGo_nil, lzEncodeGo_nil]
    | cons x rest =>
      simp only [List.length_cons] at h1 h2 h0
      obtain ⟨g1, rfl⟩ : ∃ g1, f1 = g1 + 1 := ⟨f1 - 1, by omega⟩
      obtain ⟨g2, rfl⟩ : ∃ g2, f2 = g2 + 1 := ⟨f2 - 1, by omega⟩
      rw [lzEncodeGo_succ, lzEncodeGo_succ]
      unfold lzEncodeStep
      cases h : LZCoder.encode_one_token st (x :: rest) learn with
      | error e => simp only [h]
      | ok p =>
        obtain ⟨r, st'⟩ := p
        simp only [h]
        by_cases hp : r.1.isEmpty
        · simp [hp]
        · have hlen : 1 ≤ r.1.length := by
            cases hr : r.1 with
            | nil => rw [hr] at hp; simp at hp
            | cons a b => simp [hr]
          have hd : ((x :: rest).drop r.1.length).length ≤ rest.length := by
            rw [List.length_drop]
            simp only [List.length_cons]
            omega
          simp only [hp]
          rw [ih st' _ learn g1 g2 (by omega) (by omega) (by omega)]

lemma lz_encode_step_error (st : LZCoder) (x : Int) (rest : List Int) (learn : Bool)
    (e : LZErr) (h : st.encode_one_token (x :: rest) learn = .error e) :
    st.encode (x :: rest) learn = .error e := by
  unfold LZCoder.encode
  simp only [List.length_cons]
  rw [lzEncodeGo_succ]
  unfold lzEncodeStep
  simp only [h]

lemma lz_encode_step_empty (st : LZCoder) (x : Int) (rest : List Int) (learn : Bool)
    (r : List Int × Int) (st' : LZCoder)
    (h : st.encode_one_token (x :: rest) learn = .ok (r, st')) (hemp : r.1 = []) :
    st.encode (x :: rest) learn =
      .error (if learn then LZErr.dictionaryFull else LZErr.learningDisabled) := by
  unfold LZCoder.encode
  simp only [List.length_cons]
  rw [lzEncodeGo_succ]
  unfold lzEncodeStep
  simp only [h, hemp]
  rfl

lemma lz_encode_step_cons (st : LZCoder) (x : Int) (rest : List Int) (learn : Bool)
    (r : List Int × Int) (st' : LZCoder)
    (h : st.encode_one_token (x :: rest) learn = .ok (r, st')) (hne : r.1 ≠ []) :
    st.encode (x :: rest) learn =
      (LZCoder.encode st' ((x :: rest).drop r.1.length) learn).map
        (fun q => (r.2 :: q.1, q.2)) := by
  unfold LZCoder.encode
  simp only [List.length_cons]
  rw [lzEncodeGo_succ]
  unfold lzEncodeStep
  have hp : r.1.isEmpty = false := by
    cases hr : r.1 with
    | nil => exact absurd hr hne
    | cons a b => rfl
  simp only [h, hp]
  have hd : ((x :: rest).drop r.1.length).length ≤ rest.length := by
    rw [List.length_drop]
    simp only [List.length_cons]
    have : 1 ≤ r.1.length := by
      cases hr : r.1 with
      | nil => exact absurd hr hne
      | cons a b => simp [hr]
    omega
  rw [lzEncodeGo_congr ((x :: rest).drop r.1.length).length st' _ learn rest.length
    ((x :: rest).drop r.1.length).length hd le_rfl le_rfl]
  rw [if_neg (by simp)]
  cases lzEncodeGo ((x :: rest).drop r.1.length).length st'
      ((x :: rest).drop r.1.length) learn with
  | error e => rfl
  | ok q => rfl

lemma proposeNextToken_false (st : LZCoder) (seq : List Int) :
    st.proposeNextToken seq false = st.token_map.longestPrefix seq := by
  unfold LZCoder.proposeNextToken
  rw [if_neg (by simp)]

lemma encode_one_false_error (st : LZCoder) (seq : List Int) (e : LZErr)
    (h : st.encode_one_token seq false = .error e) : e = .learningDisabled := by
  unfold LZCoder.encode_one_token at h
  by_cases h1 : (mapFind st.encoded_vocab (st.proposeNextToken seq false).2).isSome
  · rw [if_pos h1] at h
    cases h
  · rw [if_neg h1, if_pos (by simp)] at h
    injection h with h
    exact h.symm

lemma encode_one_false_ok (st : LZCoder) (seq : List Int) (r : List Int × Int)
    (st' : LZCoder) (h : st.encode_one_token seq false = .ok (r, st')) :
    st' = st ∧ r = st.token_map.longestPrefix seq := by
  unfold LZCoder.encode_one_token at h
  by_cases h1 : (mapFind st.encoded_vocab (st.proposeNextToken seq false).2).isSome
  · rw [if_pos h1] at h
    injection h with h
    obtain ⟨h2, h3⟩ := Prod.mk.injEq _ _ _ _ ▸ h
    exact ⟨h3.symm, by rw [← h2, proposeNextToken_false]⟩
  · rw [if_neg h1, if_pos (by simp)] at h
    cases h

/-- The pair returned by the walk extends the accumulated path by a
prefix of the remaining input, and the extended path is a node of the
trie when the extension is nonempty. -/
lemma lpGo_walk (t : Trie) :
    ∀ (rest pfx : List Int) (val : Int),
      ∃ u, (lpGo t pfx val rest).1 = pfx ++ u ∧ u <+: rest ∧
        (∀ w, w <+: u → w ≠ [] → ((t.findNode (pfx ++ w)).isSome = true)) := by
  intro rest
  induction rest with
  | nil =>
    intro pfx val
    refine ⟨[], by simp [lpGo], List.nil_prefix, ?_⟩
    intro w hw hne
    rw [List.prefix_nil.mp hw] at hne
    exact absurd rfl hne
  | cons x rest ih =>
    intro pfx val
    cases hfind : t.findNode (pfx ++ [x]) with
    | none =>
      refine ⟨[], ?_, List.nil_prefix, ?_⟩
      · simp [lpGo, hfind]
      · intro w hw hne
        rw [List.prefix_nil.mp hw] at hne
        exact absurd rfl hne
    | some ve =>
      obtain ⟨v, e⟩ := ve
      obtain ⟨u', hu1, hu2, hu3⟩ := ih (pfx ++ [x]) (if e then v else val)
      refine ⟨x :: u', ?_, ?_, ?_⟩
      · simp only [lpGo, hfind]
        rw [hu1]
        simp
      · obtain ⟨w, hw⟩ := hu2
        exact ⟨w, by simp [← hw]⟩
      · intro w hw hne
        cases w with
        | nil => exact absurd rfl hne
        | cons a b =>
          obtain ⟨ha, hb⟩ : a = x ∧ b <+: u' := by
            obtain ⟨z, hz⟩ := hw
            injection hz with hz1 hz2
            exact ⟨hz1, ⟨z, hz2⟩⟩
          subst ha
          cases hb0 : b with
          | nil =>
            rw [show pfx ++ a :: ([] : List Int) = pfx ++ [a] from rfl, hfind]
            rfl
          | cons c d =>
            have h3 := hu3 b hb (by rw [hb0]; simp)
            rw [hb0] at h3
            rw [show pfx ++ a :: c :: d = (pfx ++ [a]) ++ c :: d by simp]
            exact h3

/-- Every symbol occurring in any trie key lies in the given
vocabulary.  This holds for a freshly constructed coder (keys are the
empty key and vocabulary singletons) and is preserved whenever the
dictionary grows only from sequences over the vocabulary. -/
def trieSymbolsIn (t : Trie) (vocab : List Int) : Prop :=
  ∀ e ∈ t.nodes, ∀ x ∈ e.1, x ∈ vocab

instance (t : Trie) (vocab : List Int) : Decidable (trieSymbolsIn t vocab) :=
  inferInstanceAs (Decidable (∀ e ∈ t.nodes, ∀ x ∈ e.1, x ∈ vocab))

lemma lz_encode_false_bad :
    ∀ (n : Nat) (st : LZCoder) (seq : List Int) (bad : Int),
      seq.length ≤ n →
      trieSymbolsIn st.token_map st.input_vocab →
      bad ∈ seq → bad ∉ st.input_vocab →
      st.encode seq false = .error LZErr.learningDisabled := by
  intro n
  induction n with
  | zero =>
    intro st seq bad hlen _ hmem _
    have : seq = [] := List.eq_nil_of_length_eq_zero (by omega)
    subst this
    cases hmem
  | succ n ih =>
    intro st seq bad hlen hsym hmem hbad
    cases seq with
    | nil => cases hmem
    | cons x rest =>
      cases h : st.encode_one_token (x :: rest) false with
      | error e =>
        rw [lz_encode_step_error st x rest false e h,
          encode_one_false_error st _ e h]
      | ok p =>
        obtain ⟨r, st'⟩ := p
        obtain ⟨hst, hr⟩ := encode_one_false_ok st _ r st' h
        by_cases hemp : r.1 = []
        · rw [lz_encode_step_empty st x rest false r st' h hemp]
          rfl
        · rw [lz_encode_step_cons st x rest false r st' h hemp]
          obtain ⟨u, hu1, hu2, hu3⟩ := lpGo_walk st.token_map (x :: rest) [] EMPTY_TOKEN
          have hr1 : r.1 = u := by
            rw [hr]
            unfold Trie.longestPrefix
            rw [hu1]
            simp
          have hnode : (st.token_map.findNode u).isSome = true := by
            have := hu3 u List.prefix_rfl (by rw [← hr1]; exact hemp)
            simpa using this
          have hbadu : bad ∉ u := by
            intro hbu
            unfold Trie.findNode at hnode
            obtain ⟨a, ha⟩ : ∃ a,
                List.find? (fun e => decide (e.1 = u)) st.token_map.nodes = some a := by
              cases hfq : List.find? (fun e => decide (e.1 = u)) st.token_map.nodes with
              | none => rw [hfq] at hnode; simp at hnode
              | some a => exact ⟨a, rfl⟩
            have hamem := List.mem_of_find?_eq_some ha
            have hak : a.1 = u := by
              have := List.find?_some ha
              simpa using this
            exact hbad (hsym a hamem bad (hak ▸ hbu))
          obtain ⟨v, hv⟩ := hu2
          have hdrop : (x :: rest).drop r.1.length = v := by
            rw [hr1, ← hv, List.drop_left]
          have hbadv : bad ∈ v := by
            have : bad ∈ u ++ v := hv ▸ hmem
            rcases List.mem_append.mp this with hbu | hbv
            · exact absurd hbu hbadu
            · exact hbv
          have hulen : 1 ≤ u.length := by
            cases hu0 : u with
            | nil => rw [hu0] at hr1; exact absurd hr1 hemp
            | cons a b => simp [hu0]
          have hvlen : v.length ≤ n := by
            have := congrArg List.length hv
            simp only [List.length_append, List.length_cons] at this hlen
            omega
          rw [hdrop, hst, ih st v bad hvlen hsym hbadv hbad]
          rfl

/-- C7: `LZCoder::encode(seq, learn)` repeatedly encodes one token from
the remaining suffix, emitting the id and dropping `|prefix|` symbols;
a step yielding an empty prefix fails with `DictionaryFull` when
`learn` is set and `LearningDisabled` otherwise; and — for a coder
whose trie keys use only `input_vocab` symbols, as holds for freshly
constructed or in-vocabulary-trained coders — `encode` with
`learn = false` on a sequence containing a symbol outside `input_vocab`
fails with `LearningDisabled`. -/
theorem lz_encode_failure_modes :
    (∀ (st : LZCoder) (x : Int) (rest : List Int) (learn : Bool)
        (r : List Int × Int) (st' : LZCoder),
        st.encode_one_token (x :: rest) learn = .ok (r, st') → r.1 = [] →
        st.encode (x :: rest) learn =
          .error (if learn then LZErr.dictionaryFull else LZErr.learningDisabled)) ∧
    (∀ (st : LZCoder) (x : Int) (rest : List Int) (learn : Bool)
        (r : List Int × Int) (st' : LZCoder),
        st.encode_one_token (x :: rest) learn = .ok (r, st') → r.1 ≠ [] →
        st.encode (x :: rest) learn =
          (LZCoder.encode st' ((x :: rest).drop r.1.length) learn).map
            (fun q => (r.2 :: q.1, q.2))) ∧
    (∀ (st : LZCoder) (seq : List Int) (bad : Int),
        trieSymbolsIn st.token_map st.input_vocab →
        bad ∈ seq → bad ∉ st.input_vocab →
        st.encode seq false = .error LZErr.learningDisabled) := by
  refine ⟨lz_encode_step_empty, lz_encode_step_cons, ?_⟩
  intro st seq bad h1 h2 h3
  exact lz_encode_false_bad seq.length st seq bad le_rfl h1 h2 h3

/-- The coder produced by `LZCoder(3, {1})`, used as a concrete witness
state. -/
def lzW : LZCoder :=
  { vocab_size := 4
    input_vocab := [1]
    unused_tokens := [1, 2]
    encoded_vocab := [(-1, []), (0, [1])]
    token_map := ⟨[([], -1, true), ([1], 0, true)]⟩ }

/-- Witness for `lz_encode_failure_modes` on the coder `LZCoder(3,{1})`:
out-of-vocabulary sequences fail with `LearningDisabled` under
`learn = false`, through each of the three clauses. -/
theorem lz_encode_failure_modes_witness :
    LZCoder.init 3 [1] = .ok lzW ∧
    LZCoder.encode lzW [2] false = .error LZErr.learningDisabled ∧
    LZCoder.encode lzW [1, 2] false = .error LZErr.learningDisabled ∧
    LZCoder.encode lzW [2, 1] false = .error LZErr.learningDisabled := by
  refine ⟨?_, ?_, ?_, ?_⟩
  · rfl
  · exact lz_encode_failure_modes.2.2 lzW [2] 2 (by decide) (by decide) (by decide)
  · have h2 := lz_encode_failure_modes.2.1 lzW 1 [2] false ([1], 0) lzW
      (by decide) (by decide)
    have h3 := lz_encode_failure_modes.2.2 lzW [2] 2 (by decide) (by decide) (by decide)
    rw [h2]
    have hd : ([1, 2] : List Int).drop (([1] : List Int)).length = [2] := rfl
    rw [hd, h3]
    rfl
  · have h1 := lz_encode_failure_modes.1 lzW 2 [1] false ([], EMPTY_TOKEN) lzW
      (by decide) rfl
    simpa using h1

/-! ### Structural lemmas about the node list and set operations -/

lemma setNode_mem {nodes : List (List Int × Int × Bool)} {p : List Int} {v : Int}
    {e : List Int × Int × Bool} (h : e ∈ setNode nodes p v) :
    e = (p, v, true) ∨ e ∈ nodes := by
  induction nodes with
  | nil =>
    simp only [setNode, List.mem_singleton] at h
    exact Or.inl h
  | cons a rest ih =>
    simp only [setNode] at h
    by_cases ha : a.1 = p
    · rw [if_pos ha] at h
      rcases List.mem_cons.mp h with h | h
      · exact Or.inl h
      · exact Or.inr (List.mem_cons_of_mem _ h)
    · rw [if_neg ha] at h
      rcases List.mem_cons.mp h with h | h
      · exact Or.inr (h ▸ List.mem_cons_self _ _)
      · rcases ih h with h | h
        · exact Or.inl h
        · exact Or.inr (List.mem_cons_of_mem _ h)

lemma setNode_find_eq (nodes : List (List Int × Int × Bool)) (p : List Int) (v : Int) :
    (setNode nodes p v).find? (fun e => e.1 = p) = some (p, v, true) := by
  induction nodes with
  | nil => simp [setNode, List.find?]
  | cons a rest ih =>
    simp only [setNode]
    by_cases ha : a.1 = p
    · rw [if_pos ha]
      simp [List.find?]
    · rw [if_neg ha]
      rw [List.find?_cons_of_neg _ (by simpa using ha)]
      exact ih

lemma setNode_find_ne (nodes : List (List Int × Int × Bool)) (p q : List Int) (v : Int)
    (hq : q ≠ p) :
    (setNode nodes p v).find? (fun e => e.1 = q) = nodes.find? (fun e => e.1 = q) := by
  have hnpq : ¬(p = q) := fun h => hq h.symm
  induction nodes with
  | nil =>
    simp only [setNode]
    rw [List.find?_cons_of_neg _ (by simpa using hnpq)]
  | cons a rest ih =>
    simp only [setNode]
    by_cases ha : a.1 = p
    · rw [if_pos ha]
      rw [List.find?_cons_of_neg _ (by simpa using hnpq)]
      rw [List.find?_cons_of_neg _ (by simp only [decide_eq_true_eq, ha]; exact hnpq)]
    · rw [if_neg ha]
      by_cases haq : a.1 = q
      · rw [List.find?_cons_of_pos _ (by simpa using haq),
          List.find?_cons_of_pos _ (by simpa using haq)]
      · rw [List.find?_cons_of_neg _ (by simpa using haq),
          List.find?_cons_of_neg _ (by simpa using haq)]
        exact ih

lemma insertPath_find_self (nodes : List (List Int × Int × Bool)) (p : List Int) :
    ((insertPath nodes p).find? (fun e => e.1 = p)).isSome = true := by
  unfold insertPath
  by_cases h : ((nodes.find? (fun e => e.1 = p)).isSome : Prop)
  · rw [if_pos h]
    exact h
  · rw [if_neg h]
    induction nodes with
    | nil => simp [List.find?]
    | cons a rest ih =>
      by_cases ha : a.1 = p
      · exact absurd (by rw [List.find?_cons_of_pos _ (by simpa using ha)]; rfl) h
      · rw [List.cons_append, List.find?_cons_of_neg _ (by simpa using ha)]
        apply ih
        intro h2
        exact h (by rw [List.find?_cons_of_neg _ (by simpa using ha)]; exact h2)

lemma insertPath_find_mono (nodes : List (List Int × Int × Bool)) (p q : List Int)
    (h : (nodes.find? (fun e => e.1 = q)).isSome = true) :
    ((insertPath nodes p).find? (fun e => e.1 = q)).isSome = true := by
  unfold insertPath
  by_cases hp : ((nodes.find? (fun e => e.1 = p)).isSome : Prop)
  · rw [if_pos hp]; exact h
  · rw [if_neg hp]
    obtain ⟨a, ha⟩ := Option.isSome_iff_exists.mp h
    rw [List.find?_append, ha]
    rfl

lemma insertPath_of_present (nodes : List (List Int × Int × Bool)) (p : List Int)
    (h : (nodes.find? (fun e => e.1 = p)).isSome = true) :
    insertPath nodes p = nodes := by
  unfold insertPath
  rw [if_pos h]

/-! ### Lemmas about the ordered-set and map primitives -/

lemma setErase_sublist (l : List Int) (x : Int) : (setErase l x).Sublist l := by
  induction l with
  | nil => simp [setErase]
  | cons y rest ih =>
    simp only [setErase]
    by_cases h : y = x
    · rw [if_pos h]
      exact (List.Sublist.refl rest).cons y
    · rw [if_neg h]
      exact ih.cons₂ y

lemma not_mem_setErase_self (l : List Int) (x : Int) (hn : l.Nodup) :
    x ∉ setErase l x := by
  induction l with
  | nil => simp [setErase]
  | cons y rest ih =>
    obtain ⟨hy, hrest⟩ := List.nodup_cons.mp hn
    simp only [setErase]
    by_cases h : y = x
    · rw [if_pos h]
      rw [h] at hy
      exact hy
    · rw [if_neg h]
      intro hmem
      rcases List.mem_cons.mp hmem with h2 | h2
      · exact h h2.symm
      · exact ih hrest h2

lemma setErase_length (l : List Int) (x : Int) (h : x ∈ l) :
    (setErase l x).length + 1 = l.length := by
  induction l with
  | nil => cases h
  | cons y rest ih =>
    simp only [setErase]
    by_cases hy : y = x
    · rw [if_pos hy]
      simp
    · rw [if_neg hy]
      have hx : x ∈ rest := by
        rcases List.mem_cons.mp h with h2 | h2
        · exact absurd h2.symm hy
        · exact h2
      simp only [List.length_cons]
      rw [← ih hx]

lemma get_begin_mem (l : List Int) (h : l ≠ []) : get_begin l ∈ l := by
  cases l with
  | nil => exact absurd rfl h
  | cons y rest => exact List.mem_cons_self y rest

lemma get_begin_le (l : List Int) (hs : List.Sorted (· < ·) l) (u : Int)
    (hu : u ∈ l) : get_begin l ≤ u := by
  cases l with
  | nil => cases hu
  | cons y rest =>
    rcases List.mem_cons.mp hu with h | h
    · rw [h]
      exact le_refl y
    · exact le_of_lt ((List.sorted_cons.mp hs).1 u h)

lemma mapSet_mem {m : List (Int × List Int)} {k : Int} {v : List Int}
    {e : Int × List Int} (h : e ∈ mapSet m k v) : e = (k, v) ∨ e ∈ m := by
  induction m with
  | nil =>
    simp only [mapSet, List.mem_singleton] at h
    exact Or.inl h
  | cons a rest ih =>
    obtain ⟨k', v'⟩ := a
    simp only [mapSet] at h
    by_cases hk : k' = k
    · rw [if_pos hk] at h
      rcases List.mem_cons.mp h with h2 | h2
      · exact Or.inl h2
      · exact Or.inr (List.mem_cons_of_mem _ h2)
    · rw [if_neg hk] at h
      rcases List.mem_cons.mp h with h2 | h2
      · exact Or.inr (h2 ▸ List.mem_cons_self _ _)
      · rcases ih h2 with h3 | h3
        · exact Or.inl h3
        · exact Or.inr (List.mem_cons_of_mem _ h3)

lemma mapFind_mapSet_self (m : List (Int × List Int)) (k : Int) (v : List Int) :
    mapFind (mapSet m k v) k = some v := by
  induction m with
  | nil => simp [mapSet, mapFind]
  | cons a rest ih =>
    obtain ⟨k', v'⟩ := a
    simp only [mapSet]
    by_cases hk : k' = k
    · rw [if_pos hk]
      simp [mapFind]
    · rw [if_neg hk]
      simp only [mapFind]
      rw [if_neg hk]
      exact ih

lemma mapFind_mapSet_ne (m : List (Int × List Int)) (k : Int) (v : List Int)
    (u : Int) (h : u ≠ k) : mapFind (mapSet m k v) u = mapFind m u := by
  induction m with
  | nil =>
    simp only [mapSet, mapFind]
    rw [if_neg (fun h2 => h h2.symm)]
  | cons a rest ih =>
    obtain ⟨k', v'⟩ := a
    simp only [mapSet]
    by_cases hk : k' = k
    · rw [if_pos hk]
      simp only [mapFind]
      rw [if_neg (fun h2 => h h2.symm), if_neg (fun h2 => h (hk ▸ h2).symm)]
    · rw [if_neg hk]
      simp only [mapFind]
      by_cases hku : k' = u
      · rw [if_pos hku, if_pos hku]
      · rw [if_neg hku, if_neg hku]
        exact ih

lemma sorted_range_int (n : Nat) :
    List.Sorted (· < ·) ((List.range n).map (fun i : Nat => (i : Int))) := by
  exact List.Pairwise.map _ (fun a b h => by exact_mod_cast h)
    (List.pairwise_lt_range n)

lemma mem_range_int (n : Nat) (u : Int)
    (h : u ∈ (List.range n).map (fun i : Nat => (i : Int))) : 0 ≤ u ∧ u < (n : Int) := by
  obtain ⟨i, hi, hu⟩ := List.mem_map.mp h
  subst hu
  exact ⟨Int.ofNat_nonneg i, by exact_mod_cast List.mem_range.mp hi⟩

/-! ### The trie invariant: prefix-closed key set, all nodes terminal -/

lemma find_isSome_of_mem (nodes : List (List Int × Int × Bool))
    (e : List Int × Int × Bool) (h : e ∈ nodes) :
    ((nodes.find? (fun q => q.1 = e.1)).isSome = true) := by
  cases hf : nodes.find? (fun q => q.1 = e.1) with
  | some a => rfl
  | none =>
    have := List.find?_eq_none.mp hf e h
    simp at this

lemma insertPath_find_ne (nodes : List (List Int × Int × Bool)) (p q : List Int)
    (h : q ≠ p) :
    (insertPath nodes p).find? (fun e => e.1 = q) = nodes.find? (fun e => e.1 = q) := by
  unfold insertPath
  by_cases hp : ((nodes.find? (fun e => e.1 = p)).isSome : Prop)
  · rw [if_pos hp]
  · rw [if_neg hp, List.find?_append]
    cases hfq : nodes.find? (fun e => e.1 = q) with
    | some a => rfl
    | none =>
      have hnpq : ¬(p = q) := fun h2 => h h2.symm
      rw [List.find?_cons_of_neg _ (by simpa using hnpq)]
      rfl

lemma setNode_append (nodes l : List (List Int × Int × Bool)) (p : List Int)
    (v : Int) (h : ∀ e ∈ nodes, e.1 ≠ p) :
    setNode (nodes ++ l) p v = nodes ++ setNode l p v := by
  induction nodes with
  | nil => rfl
  | cons a rest ih =>
    simp only [List.cons_append, setNode]
    rw [if_neg (h a (List.mem_cons_self a rest))]
    show a :: setNode (rest ++ l) p v = a :: (rest ++ setNode l p v)
    rw [ih (fun e he => h e (List.mem_cons_of_mem a he))]

lemma insertGo_present :
    ∀ (rest : List Int) (nodes : List (List Int × Int × Bool)) (pathSoFar : List Int),
      rest ≠ [] →
      (∀ u, u <+: rest → u ≠ [] → u.length < rest.length →
        ((nodes.find? (fun e => e.1 = pathSoFar ++ u)).isSome = true)) →
      insertGo nodes pathSoFar rest = insertPath nodes (pathSoFar ++ rest) := by
  intro rest
  induction rest with
  | nil => intro _ _ h _; exact absurd rfl h
  | cons x rest' ih =>
    intro nodes pathSoFar _ hpre
    cases rest' with
    | nil => rfl
    | cons y rest'' =>
      have h1 : ((nodes.find? (fun e => e.1 = pathSoFar ++ [x])).isSome = true) :=
        hpre [x] ⟨y :: rest'', rfl⟩ (by simp) (by simp)
      have hinner : ∀ u, u <+: y :: rest'' → u ≠ [] → u.length < (y :: rest'').length →
          ((nodes.find? (fun e => e.1 = (pathSoFar ++ [x]) ++ u)).isSome = true) := by
        intro u hu hune hulen
        have hxu : (x :: u) <+: (x :: y :: rest'') := by
          obtain ⟨z, hz⟩ := hu
          exact ⟨z, by rw [← hz]; rfl⟩
        have := hpre (x :: u) hxu (by simp)
          (by simp only [List.length_cons] at hulen ⊢; omega)
        rw [show pathSoFar ++ x :: u = (pathSoFar ++ [x]) ++ u by simp] at this
        exact this
      have hstep : insertGo nodes pathSoFar (x :: y :: rest'') =
          insertGo (insertPath nodes (pathSoFar ++ [x])) (pathSoFar ++ [x])
            (y :: rest'') := rfl
      rw [hstep, insertPath_of_present _ _ h1,
        ih nodes (pathSoFar ++ [x]) (List.cons_ne_nil y rest'') hinner]
      congr 1
      simp

lemma trie_insert_nodes (t : Trie) (key : List Int) (v : Int)
    (hroot : ((t.nodes.find? (fun e => e.1 = ([] : List Int))).isSome = true))
    (hpre : ∀ p, p <+: key → p ≠ key → p ≠ [] →
      ((t.nodes.find? (fun e => e.1 = p)).isSome = true)) :
    (t.insert key v).nodes = setNode (insertPath t.nodes key) key v := by
  cases key with
  | nil =>
    show setNode (insertGo t.nodes [] []) [] v = setNode (insertPath t.nodes []) [] v
    rw [show insertGo t.nodes [] [] = t.nodes from rfl,
      insertPath_of_present _ _ hroot]
  | cons x rest =>
    show setNode (insertGo t.nodes [] (x :: rest)) (x :: rest) v = _
    rw [insertGo_present (x :: rest) t.nodes [] (List.cons_ne_nil x rest) ?hp]
    case hp =>
      intro u hu hune hulen
      have hunk : u ≠ x :: rest := fun he => by rw [he] at hulen; omega
      exact hpre u hu hunk hune
    rfl

/-- A path is a node of the trie. -/
def trieHas (t : Trie) (p : List Int) : Bool :=
  (t.nodes.find? (fun e => e.1 = p)).isSome

lemma trieHas_eq_findNode (t : Trie) (q : List Int) :
    trieHas t q = (t.findNode q).isSome := by
  unfold trieHas Trie.findNode
  cases t.nodes.find? (fun e => e.1 = q) <;> rfl

/-- The structural invariant of every trie built by the LZ coder: the
root is a node, every node is terminal, and the node set is closed
under prefixes of node paths. -/
def trieInv (t : Trie) : Prop :=
  trieHas t [] = true ∧
  (∀ e ∈ t.nodes, e.2.2 = true) ∧
  (∀ e ∈ t.nodes, ∀ p ∈ e.1.inits, trieHas t p = true)

instance (t : Trie) : Decidable (trieInv t) :=
  inferInstanceAs (Decidable (trieHas t [] = true ∧
    (∀ e ∈ t.nodes, e.2.2 = true) ∧
    (∀ e ∈ t.nodes, ∀ p ∈ e.1.inits, trieHas t p = true)))

lemma trieHas_insert (t : Trie) (key : List Int) (v : Int)
    (hroot : trieHas t [] = true)
    (hpre : ∀ p, p <+: key → p ≠ key → p ≠ [] → trieHas t p = true)
    (q : List Int) :
    (trieHas (t.insert key v) q = true) ↔ (q = key ∨ trieHas t q = true) := by
  unfold trieHas
  rw [trie_insert_nodes t key v hroot hpre]
  by_cases hq : q = key
  · subst hq
    rw [setNode_find_eq]
    simp
  · rw [setNode_find_ne _ _ _ _ hq, insertPath_find_ne _ _ _ hq]
    simp [hq]

lemma insert_nodes_cases (t : Trie) (key : List Int) (v : Int)
    (hroot : trieHas t [] = true)
    (hpre : ∀ p, p <+: key → p ≠ key → p ≠ [] → trieHas t p = true)
    (e : List Int × Int × Bool) (he : e ∈ (t.insert key v).nodes) :
    e = (key, v, true) ∨ e ∈ t.nodes := by
  rw [trie_insert_nodes t key v hroot hpre] at he
  by_cases hk : ((t.nodes.find? (fun q => q.1 = key)).isSome : Prop)
  · rw [insertPath_of_present _ _ hk] at he
    exact setNode_mem he
  · have habs : ∀ a ∈ t.nodes, a.1 ≠ key := by
      intro a ha hak
      have h2 := find_isSome_of_mem t.nodes a ha
      rw [hak] at h2
      exact hk h2
    have hform : insertPath t.nodes key = t.nodes ++ [(key, EMPTY_TOKEN, false)] := by
      unfold insertPath
      rw [if_neg hk]
    rw [hform, setNode_append t.nodes _ key v habs] at he
    have hsingle : setNode [(key, EMPTY_TOKEN, false)] key v = [(key, v, true)] := by
      simp [setNode]
    rw [hsingle] at he
    rcases List.mem_append.mp he with h | h
    · exact Or.inr h
    · exact Or.inl (by simpa using h)

lemma trieInv_insert (t : Trie) (key : List Int) (v : Int) (hinv : trieInv t)
    (hpre : ∀ p, p <+: key → p ≠ key → p ≠ [] → trieHas t p = true) :
    trieInv (t.insert key v) := by
  obtain ⟨hroot, hterm, hclosed⟩ := hinv
  have hhas := trieHas_insert t key v hroot hpre
  refine ⟨?_, ?_, ?_⟩
  · exact (hhas []).mpr (Or.inr hroot)
  · intro e he
    rcases insert_nodes_cases t key v hroot hpre e he with h | h
    · rw [h]
    · exact hterm e h
  · intro e he p hp
    have hp' : p <+: e.1 := (List.mem_inits _ _).mp hp
    rcases insert_nodes_cases t key v hroot hpre e he with h | h
    · rw [h] at hp'
      refine (hhas p).mpr ?_
      by_cases hpk : p = key
      · exact Or.inl hpk
      · by_cases hpn : p = []
        · exact Or.inr (hpn ▸ hroot)
        · exact Or.inr (hpre p hp' hpk hpn)
    · exact (hhas p).mpr (Or.inr (hclosed e h p hp))

/-! ### Nodes walked by the longest-prefix proposal -/

lemma longestPrefix_nodes (st : LZCoder) (seq : List Int) :
    ∀ w, w <+: (st.token_map.longestPrefix seq).1 → w ≠ [] →
      trieHas st.token_map w = true := by
  obtain ⟨u, hu1, hu2, hu3⟩ := lpGo_walk st.token_map seq [] EMPTY_TOKEN
  intro w hw hwne
  have hwu : w <+: u := by
    have : (st.token_map.longestPrefix seq).1 = u := by
      rw [Trie.longestPrefix, hu1]
      rfl
    rwa [this] at hw
  have h4 := hu3 w hwu hwne
  rw [trieHas_eq_findNode]
  simpa using h4

lemma proposeNextToken_shape (st : LZCoder) (seq : List Int) (learn : Bool) :
    (st.proposeNextToken seq learn).1 = (st.token_map.longestPrefix seq).1 ∨
    ∃ x, (st.proposeNextToken seq learn).1 =
      (st.token_map.longestPrefix seq).1 ++ [x] := by
  simp only [LZCoder.proposeNextToken]
  by_cases hc : (learn = true) ∧ (st.token_map.longestPrefix seq).1.length < seq.length ∧
      (st.vocab_size < 0 ∨ Int.ofNat st.token_map.size < st.vocab_size)
  · rw [if_pos hc]
    exact Or.inr ⟨_, rfl⟩
  · rw [if_neg hc]
    exact Or.inl rfl

lemma proposeNextToken_prefix_nodes (st : LZCoder) (seq : List Int) (learn : Bool) :
    ∀ p, p <+: (st.proposeNextToken seq learn).1 →
      p ≠ (st.proposeNextToken seq learn).1 → p ≠ [] →
      trieHas st.token_map p = true := by
  intro p hp hpne hpnil
  rcases proposeNextToken_shape st seq learn with h | ⟨x, h⟩
  · rw [h] at hp
    exact longestPrefix_nodes st seq p hp hpnil
  · rw [h] at hp hpne
    have hlt : p.length < ((st.token_map.longestPrefix seq).1 ++ [x]).length := by
      rcases Nat.lt_or_ge p.length (((st.token_map.longestPrefix seq).1 ++ [x]).length)
        with h2 | h2
      · exact h2
      · exact absurd (List.IsPrefix.eq_of_length hp
          (le_antisymm hp.length_le h2)) hpne
    have hple : p.length ≤ (st.token_map.longestPrefix seq).1.length := by
      rw [List.length_append, List.length_cons, List.length_nil] at hlt
      omega
    have hp2 : p <+: (st.token_map.longestPrefix seq).1 :=
      List.prefix_of_prefix_length_le hp (List.prefix_append _ _) hple
    exact longestPrefix_nodes st seq p hp2 hpnil

/-! ### The LZ coder's allocation invariant -/

/-- The allocation bookkeeping invariant of a plain `LZCoder`:
`unused_tokens` is sorted ascending (a `std::set<int>`), every unused
token is unassigned in `encoded_vocab`, when the vocabulary is bounded
both the unused tokens and the assigned non-sentinel ids lie in
`{0 .. vocab_size - 2}` (the stored `vocab_size` is the constructor
argument plus one), and the token trie satisfies `trieInv`. -/
def LZInv (st : LZCoder) : Prop :=
  List.Sorted (· < ·) st.unused_tokens ∧
  (∀ u ∈ st.unused_tokens, mapFind st.encoded_vocab u = none) ∧
  (0 < st.vocab_size →
    (∀ u ∈ st.unused_tokens, 0 ≤ u ∧ u < st.vocab_size - 1) ∧
    (∀ e ∈ st.encoded_vocab, e.1 = EMPTY_TOKEN ∨ (0 ≤ e.1 ∧ e.1 < st.vocab_size - 1))) ∧
  trieInv st.token_map

lemma addNewToken_sorted (st : LZCoder) (pfx : List Int) (tok : Int)
    (hs : List.Sorted (· < ·) st.unused_tokens) :
    List.Sorted (· < ·) (st.addNewToken pfx tok).unused_tokens :=
  List.Pairwise.sublist (setErase_sublist st.unused_tokens tok) hs

lemma addNewToken_disjoint (st : LZCoder) (pfx : List Int) (tok : Int)
    (hs : List.Sorted (· < ·) st.unused_tokens)
    (hd : ∀ u ∈ st.unused_tokens, mapFind st.encoded_vocab u = none) :
    ∀ u ∈ (st.addNewToken pfx tok).unused_tokens,
      mapFind (st.addNewToken pfx tok).encoded_vocab u = none := by
  intro u hu
  have hnodup : st.unused_tokens.Nodup :=
    hs.imp (fun h => ne_of_lt h)
  have hul : u ∈ st.unused_tokens := (setErase_sublist _ _).subset hu
  have hne : u ≠ tok := fun he =>
    not_mem_setErase_self st.unused_tokens tok hnodup (he ▸ hu)
  show mapFind (mapSet st.encoded_vocab tok pfx) u = none
  rw [mapFind_mapSet_ne _ _ _ _ hne]
  exact hd u hul

lemma addNewToken_bounded (st : LZCoder) (pfx : List Int) (tok : Int) (B : Int)
    (hb1 : ∀ u ∈ st.unused_tokens, 0 ≤ u ∧ u < B)
    (hb2 : ∀ e ∈ st.encoded_vocab, e.1 = EMPTY_TOKEN ∨ (0 ≤ e.1 ∧ e.1 < B))
    (htok : tok ∈ st.unused_tokens) :
    (∀ u ∈ (st.addNewToken pfx tok).unused_tokens, 0 ≤ u ∧ u < B) ∧
    (∀ e ∈ (st.addNewToken pfx tok).encoded_vocab,
      e.1 = EMPTY_TOKEN ∨ (0 ≤ e.1 ∧ e.1 < B)) := by
  constructor
  · intro u hu
    exact hb1 u ((setErase_sublist _ _).subset hu)
  · intro e he
    rcases mapSet_mem he with h | h
    · right
      rw [h]
      exact hb1 tok htok
    · exact hb2 e h

lemma addNewToken_trie (st : LZCoder) (pfx : List Int) (tok : Int)
    (ht : trieInv st.token_map)
    (hpre : ∀ p, p <+: pfx → p ≠ pfx → p ≠ [] → trieHas st.token_map p = true) :
    trieInv (st.addNewToken pfx tok).token_map :=
  trieInv_insert st.token_map pfx tok ht hpre

lemma addNewToken_lzinv (st : LZCoder) (pfx : List Int) (tok : Int)
    (hinv : LZInv st) (htok : tok ∈ st.unused_tokens)
    (hpre : ∀ p, p <+: pfx → p ≠ pfx → p ≠ [] → trieHas st.token_map p = true) :
    LZInv (st.addNewToken pfx tok) := by
  obtain ⟨hsort, hdisj, hbound, htrie⟩ := hinv
  refine ⟨addNewToken_sorted st pfx tok hsort,
    addNewToken_disjoint st pfx tok hsort hdisj, ?_, addNewToken_trie st pfx tok htrie hpre⟩
  intro hv
  obtain ⟨hb1, hb2⟩ := hbound hv
  exact addNewToken_bounded st pfx tok (st.vocab_size - 1) hb1 hb2 htok

/-! ### The invariant holds after construction -/

/-- The part of `LZInv` with an explicit bound, used while the
constructor is still registering the input vocabulary (at that point
`vocab_size` is still `-1`). -/
def lzPreInv (B : Int) (st : LZCoder) : Prop :=
  List.Sorted (· < ·) st.unused_tokens ∧
  (∀ u ∈ st.unused_tokens, mapFind st.encoded_vocab u = none) ∧
  (∀ u ∈ st.unused_tokens, 0 ≤ u ∧ u < B) ∧
  (∀ e ∈ st.encoded_vocab, e.1 = EMPTY_TOKEN ∨ (0 ≤ e.1 ∧ e.1 < B)) ∧
  trieInv st.token_map

lemma prefix_of_singleton (p : List Int) (c : Int) (h : p <+: [c]) :
    p = [] ∨ p = [c] := by
  cases p with
  | nil => exact Or.inl rfl
  | cons a b =>
    obtain ⟨z, hz⟩ := h
    injection hz with h1 h2
    have hb : b = [] ∧ z = [] := by
      constructor
      · cases b with
        | nil => rfl
        | cons u w => simp at h2
      · cases b with
        | nil => simpa using h2
        | cons u w => simp at h2
    right
    rw [h1, hb.1]

lemma addNewToken_preinv (B : Int) (st : LZCoder) (c tok : Int)
    (hinv : lzPreInv B st) (htok : tok ∈ st.unused_tokens) :
    lzPreInv B (st.addNewToken [c] tok) := by
  obtain ⟨hsort, hdisj, hb1, hb2, htrie⟩ := hinv
  have hpre : ∀ p, p <+: [c] → p ≠ [c] → p ≠ [] → trieHas st.token_map p = true := by
    intro p hp hp1 hp2
    rcases prefix_of_singleton p c hp with h | h
    · exact absurd h hp2
    · exact absurd h hp1
  obtain ⟨hc1, hc2⟩ := addNewToken_bounded st [c] tok B hb1 hb2 htok
  exact ⟨addNewToken_sorted st [c] tok hsort,
    addNewToken_disjoint st [c] tok hsort hdisj, hc1, hc2,
    addNewToken_trie st [c] tok htrie hpre⟩

lemma init_fold_preinv (B : Int) :
    ∀ (l : List Int) (st : LZCoder),
      lzPreInv B st →
      l.length ≤ st.unused_tokens.length →
      lzPreInv B
        (l.foldl (fun st c => st.addNewToken [c] (get_begin st.unused_tokens)) st) := by
  intro l
  induction l with
  | nil => intro st h _; exact h
  | cons c l' ih =>
    intro st hinv hlen
    have hne : st.unused_tokens ≠ [] := by
      intro h0
      rw [h0] at hlen
      simp at hlen
    have htok : get_begin st.unused_tokens ∈ st.unused_tokens := get_begin_mem _ hne
    have hinv' := addNewToken_preinv B st c (get_begin st.unused_tokens) hinv htok
    have hlen' : l'.length ≤
        (st.addNewToken [c] (get_begin st.unused_tokens)).unused_tokens.length := by
      have h2 := setErase_length st.unused_tokens (get_begin st.unused_tokens) htok
      show l'.length ≤ (setErase st.unused_tokens (get_begin st.unused_tokens)).length
      simp only [List.length_cons] at hlen
      omega
    exact ih _ hinv' hlen'

lemma init_inv (n : Int) (vocab : List Int) (st : LZCoder)
    (h : LZCoder.init n vocab = .ok st) : LZInv st := by
  simp only [LZCoder.init] at h
  by_cases hn : n > 0
  · rw [if_pos hn] at h
    by_cases hv : (vocab.length : Int) > n
    · rw [if_pos hv] at h
      cases h
    · rw [if_neg hv] at h
      injection h with h2
      subst h2
      have hpre1 : lzPreInv n
          { vocab_size := -1
            input_vocab := vocab
            unused_tokens := (List.range n.toNat).map (fun i : Nat => (i : Int))
            encoded_vocab := mapSet [] EMPTY_TOKEN []
            token_map := Trie.insert Trie.empty [] EMPTY_TOKEN } := by
        refine ⟨sorted_range_int n.toNat, ?_, ?_, ?_, ?_⟩
        · intro u hu
          obtain ⟨h0, _⟩ := mem_range_int n.toNat u hu
          have : EMPTY_TOKEN ≠ u := by
            simp only [EMPTY_TOKEN]
            omega
          show mapFind [(EMPTY_TOKEN, [])] u = none
          rw [show mapFind [(EMPTY_TOKEN, [])] u =
            if EMPTY_TOKEN = u then some [] else none from rfl, if_neg this]
        · intro u hu
          obtain ⟨h0, h1⟩ := mem_range_int n.toNat u hu
          refine ⟨h0, ?_⟩
          rw [Int.toNat_of_nonneg (le_of_lt hn)] at h1
          exact h1
        · intro e he
          rcases List.mem_singleton.mp he with h2
          rw [h2]
          exact Or.inl rfl
        · show trieInv (Trie.insert Trie.empty [] EMPTY_TOKEN)
          decide
      have hlen : vocab.length ≤
          ((List.range n.toNat).map (fun i : Nat => (i : Int))).length := by
        rw [List.length_map, List.length_range]
        omega
      have hfold := init_fold_preinv n vocab _ hpre1 hlen
      obtain ⟨hs2, hd2, hb12, hb22, ht2⟩ := hfold
      refine ⟨hs2, hd2, ?_, ht2⟩
      intro _
      constructor
      · intro u hu
        have h3 := hb12 u hu
        constructor
        · exact h3.1
        · have : n + 1 - 1 = n := by ring
          rw [this]
          exact h3.2
      · intro e he
        rcases hb22 e he with h3 | h3
        · exact Or.inl h3
        · right
          refine ⟨h3.1, ?_⟩
          have : n + 1 - 1 = n := by ring
          rw [this]
          exact h3.2
  · rw [if_neg hn] at h
    injection h with h2
    subst h2
    refine ⟨?_, ?_, ?_, ?_⟩
    · show List.Sorted (· < ·) ([] : List Int)
      exact List.sorted_nil
    · intro u hu
      exact absurd hu (List.not_mem_nil u)
    · intro hv
      have h2 : ¬ ((0 : Int) < -1) := by decide
      exact absurd hv h2
    · show trieInv (Trie.insert Trie.empty [] EMPTY_TOKEN)
      decide

/-! ### The invariant is preserved by every mutating operation -/

lemma update_vocab_inv :
    ∀ (seq : List Int) (st st' : LZCoder), LZInv st →
      LZCoder.update_vocab st seq = .ok st' → LZInv st' := by
  intro seq
  induction seq with
  | nil =>
    intro st st' hinv h
    injection h with h2
    exact h2 ▸ hinv
  | cons c rest ih =>
    intro st st' hinv h
    simp only [LZCoder.update_vocab] at h
    split at h
    next hmem => exact ih st st' hinv h
    next hmem =>
      split at h
      next hemp => cases h
      next hemp =>
        split at h
        next hfull => cases h
        next hfull =>
          have hne : st.unused_tokens ≠ [] := by
            intro h0
            exact hemp (by rw [h0]; rfl)
          have hinv1 : LZInv (st.addNewToken [c] (get_begin st.unused_tokens)) := by
            apply addNewToken_lzinv st [c] (get_begin st.unused_tokens) hinv
              (get_begin_mem _ hne)
            intro p hp hp1 hp2
            rcases prefix_of_singleton p c hp with h2 | h2
            · exact absurd h2 hp2
            · exact absurd h2 hp1
          have hinv2 : LZInv { st.addNewToken [c] (get_begin st.unused_tokens) with
              input_vocab :=
                setInsert (st.addNewToken [c] (get_begin st.unused_tokens)).input_vocab c } :=
            hinv1
          exact ih _ st' hinv2 h

lemma encode_one_inv (st : LZCoder) (seq : List Int) (learn : Bool)
    (r : List Int × Int) (st' : LZCoder) (hinv : LZInv st)
    (h : st.encode_one_token seq learn = .ok (r, st')) : LZInv st' := by
  simp only [LZCoder.encode_one_token] at h
  split at h
  next hfound =>
    injection h with h2
    injection h2 with h3 h4
    exact h4 ▸ hinv
  next hfound =>
    split at h
    next hlearn => cases h
    next hlearn =>
      split at h
      next hfull => cases h
      next hfull =>
        split at h
        next hemp => cases h
        next hemp =>
          injection h with h2
          injection h2 with h3 h4
          have hne : st.unused_tokens ≠ [] := by
            intro h0
            exact hemp (by rw [h0]; rfl)
          exact h4 ▸ addNewToken_lzinv st (st.proposeNextToken seq learn).1
            (get_begin st.unused_tokens) hinv (get_begin_mem _ hne)
            (proposeNextToken_prefix_nodes st seq learn)

lemma lzEncodeGo_inv :
    ∀ (fuel : Nat) (st : LZCoder) (rem : List Int) (learn : Bool)
      (out : List Int) (st' : LZCoder), LZInv st →
      lzEncodeGo fuel st rem learn = .ok (out, st') → LZInv st' := by
  intro fuel
  induction fuel with
  | zero =>
    intro st rem learn out st' hinv h
    have h0 : (Except.ok (([] : List Int), st) : Except LZErr (List Int × LZCoder)) =
        .ok (out, st') := h
    injection h0 with h2
    injection h2 with h3 h4
    exact h4 ▸ hinv
  | succ n ih =>
    intro st rem learn out st' hinv h
    rw [lzEncodeGo_succ] at h
    cases rem with
    | nil =>
      simp only [lzEncodeStep] at h
      injection h with h2
      injection h2 with h3 h4
      exact h4 ▸ hinv
    | cons x rest =>
      simp only [lzEncodeStep] at h
      cases henc : LZCoder.encode_one_token st (x :: rest) learn with
      | error e =>
        rw [henc] at h
        cases h
      | ok p =>
        obtain ⟨r1, st1⟩ := p
        have hinv1 := encode_one_inv st (x :: rest) learn r1 st1 hinv henc
        simp only [henc] at h
        by_cases hemp : r1.1.isEmpty = true
        · rw [if_pos hemp] at h
          cases h
        · rw [if_neg hemp] at h
          cases hcont : lzEncodeGo n st1 ((x :: rest).drop r1.1.length) learn with
          | error e =>
            rw [hcont] at h
            cases h
          | ok q =>
            obtain ⟨out2, st2⟩ := q
            simp only [hcont] at h
            injection h with h2
            injection h2 with h3 h4
            exact h4 ▸ ih st1 _ learn out2 st2 hinv1 hcont

lemma encode_inv (st : LZCoder) (seq : List Int) (learn : Bool)
    (out : List Int) (st' : LZCoder) (hinv : LZInv st)
    (h : st.encode seq learn = .ok (out, st')) : LZInv st' :=
  lzEncodeGo_inv seq.length st seq learn out st' hinv h

/-- The reachable states of a plain `LZCoder`: freshly constructed, or
obtained from a reachable state by `update_vocab`, `encode_one_token`,
`encode`, or by the hierarchical coder committing its voted token
(`coder._add_new_token(prefix, best_token)` with `prefix` from
`coder._propose_next_token` and `best_token` drawn from the coder's
unused tokens). -/
inductive ReachableLZ : LZCoder → Prop where
  | init : ∀ (n : Int) (vocab : List Int) (st : LZCoder),
      LZCoder.init n vocab = .ok st → ReachableLZ st
  | update_vocab : ∀ (st st' : LZCoder) (seq : List Int),
      ReachableLZ st → LZCoder.update_vocab st seq = .ok st' → ReachableLZ st'
  | encode_one : ∀ (st st' : LZCoder) (seq : List Int) (learn : Bool)
      (r : List Int × Int),
      ReachableLZ st → st.encode_one_token seq learn = .ok (r, st') →
      ReachableLZ st'
  | encode : ∀ (st st' : LZCoder) (seq : List Int) (learn : Bool)
      (out : List Int),
      ReachableLZ st → st.encode seq learn = .ok (out, st') → ReachableLZ st'
  | hierCommit : ∀ (st : LZCoder) (seq : List Int) (learn : Bool) (tok : Int),
      ReachableLZ st → tok ∈ st.unused_tokens →
      ReachableLZ (st.addNewToken (st.proposeNextToken seq learn).1 tok)

lemma reachable_lzinv (st : LZCoder) (h : ReachableLZ st) : LZInv st := by
  induction h with
  | init n vocab st h => exact init_inv n vocab st h
  | update_vocab st st' seq hr h ih => exact update_vocab_inv seq st st' ih h
  | encode_one st st' seq learn r hr h ih => exact encode_one_inv st seq learn r st' ih h
  | encode st st' seq learn out hr h ih => exact encode_inv st seq learn out st' ih h
  | hierCommit st seq learn tok hr htok ih =>
    exact addNewToken_lzinv st (st.proposeNextToken seq learn).1 tok ih htok
      (proposeNextToken_prefix_nodes st seq learn)

/-! ### C4 and C10: allocation and trie invariants of reachable coders -/

/-- The coder produced by `LZCoder(2, {})`: `vocab_size` is stored as
`2 + 1 = 3`, the unused tokens are `{0, 1}`, and the sentinel
`EMPTY_TOKEN = -1` is already assigned the empty expansion. -/
def lzCex : LZCoder :=
  { vocab_size := 3
    input_vocab := []
    unused_tokens := [0, 1]
    encoded_vocab := [(EMPTY_TOKEN, [])]
    token_map := ⟨[([], EMPTY_TOKEN, true)]⟩ }

/-- C4 (counterexample to the claim as stated): in the freshly
constructed coder `LZCoder(2, {})` the vocabulary is bounded
(`vocab_size = 3 > 0`), yet the assigned id `EMPTY_TOKEN = -1` — a key
of `encoded_vocab` — lies outside `{0 .. vocab_size - 1}`, so the
union of `unused_tokens` and the assigned ids is not contained in that
range: the sentinel must be excluded. -/
theorem lz_vocab_range_counterexample :
    LZCoder.init 2 [] = .ok lzCex ∧
    0 < lzCex.vocab_size ∧
    mapFind lzCex.encoded_vocab EMPTY_TOKEN = some [] ∧
    ¬ (0 ≤ EMPTY_TOKEN ∧ EMPTY_TOKEN ≤ lzCex.vocab_size - 1) := by decide

/-- C4 (amended): in every reachable `LZCoder` state, `unused_tokens`
is disjoint from the key set of `encoded_vocab`; when the vocabulary
is bounded (`vocab_size > 0`), the unused tokens and the assigned
non-sentinel ids all lie in `{0 .. vocab_size - 2}` (the stored
`vocab_size` is the constructor argument plus one, and the sentinel
`EMPTY_TOKEN = -1` is assigned but lies outside the range); and each
id newly assigned by plain LZ allocation (`encode_one_token` when the
proposed token is unassigned) equals the minimum of `unused_tokens` at
allocation time and is recorded in `encoded_vocab`. -/
theorem lz_allocation_invariants (st : LZCoder) (h : ReachableLZ st) :
    (∀ u ∈ st.unused_tokens, mapFind st.encoded_vocab u = none) ∧
    (0 < st.vocab_size →
      (∀ u ∈ st.unused_tokens, 0 ≤ u ∧ u ≤ st.vocab_size - 2) ∧
      (∀ e ∈ st.encoded_vocab, e.1 ≠ EMPTY_TOKEN →
        0 ≤ e.1 ∧ e.1 ≤ st.vocab_size - 2)) ∧
    (∀ (seq : List Int) (learn : Bool) (r : List Int × Int) (st' : LZCoder),
      mapFind st.encoded_vocab (st.proposeNextToken seq learn).2 = none →
      st.encode_one_token seq learn = .ok (r, st') →
      r.2 = get_begin st.unused_tokens ∧ r.2 ∈ st.unused_tokens ∧
      (∀ u ∈ st.unused_tokens, r.2 ≤ u) ∧
      mapFind st'.encoded_vocab r.2 = some r.1) := by
  obtain ⟨hsort, hdisj, hbound, htrie⟩ := reachable_lzinv st h
  refine ⟨hdisj, ?_, ?_⟩
  · intro hv
    obtain ⟨hb1, hb2⟩ := hbound hv
    constructor
    · intro u hu
      obtain ⟨h1, h2⟩ := hb1 u hu
      exact ⟨h1, by omega⟩
    · intro e he hne
      rcases hb2 e he with h2 | h2
      · exact absurd h2 hne
      · exact ⟨h2.1, by omega⟩
  · intro seq learn r st' hnone henc
    simp only [LZCoder.encode_one_token] at henc
    rw [if_neg (by rw [hnone]; simp)] at henc
    split at henc
    next => cases henc
    next hlearn =>
      split at henc
      next => cases henc
      next hfull =>
        split at henc
        next => cases henc
        next hemp =>
          have hne : st.unused_tokens ≠ [] := fun h0 => hemp (by rw [h0]; rfl)
          injection henc with h2
          injection h2 with h3 h4
          subst h3
          subst h4
          exact ⟨rfl, get_begin_mem _ hne, fun u hu => get_begin_le _ hsort u hu,
            mapFind_mapSet_self st.encoded_vocab (get_begin st.unused_tokens)
              (st.proposeNextToken seq learn).1⟩

/-- Witness for `lz_allocation_invariants` at the freshly constructed
coder `LZCoder(3, {1})`: the unused id `1` is unassigned and in range,
and encoding `[1, 1]` with learning allocates exactly the minimum
unused id `1` and records its expansion. -/
theorem lz_allocation_invariants_witness :
    mapFind lzW.encoded_vocab 1 = none ∧
    (0 ≤ (1 : Int) ∧ (1 : Int) ≤ lzW.vocab_size - 2) ∧
    ((([1, 1] : List Int), (1 : Int)).2 = get_begin lzW.unused_tokens ∧
      mapFind (lzW.addNewToken [1, 1] 1).encoded_vocab
        ((([1, 1] : List Int), (1 : Int)).2) = some [1, 1]) := by
  have h := lz_allocation_invariants lzW (ReachableLZ.init 3 [1] lzW rfl)
  have h3 := h.2.2 [1, 1] true ([1, 1], 1) (lzW.addNewToken [1, 1] 1)
    (by decide) (by decide)
  exact ⟨h.1 1 (by decide), (h.2.1 (by decide)).1 1 (by decide), h3.1, h3.2.2.2⟩

/-- C10: in every reachable `LZCoder` state the trie's key set is
prefix-closed — every prefix of a node's path is itself a node — and
every node of the trie is terminal: the constructor inserts the empty
key and vocabulary singletons, and every later insertion extends a key
already walked in the trie by at most one symbol. -/
theorem lz_trie_prefix_closed (st : LZCoder) (h : ReachableLZ st) :
    (∀ e ∈ st.token_map.nodes, e.2.2 = true) ∧
    (∀ e ∈ st.token_map.nodes, ∀ p, p <+: e.1 →
      trieHas st.token_map p = true) := by
  obtain ⟨_, _, _, htrie⟩ := reachable_lzinv st h
  obtain ⟨hroot, hterm, hclosed⟩ := htrie
  exact ⟨hterm, fun e he p hp => hclosed e he p ((List.mem_inits _ _).mpr hp)⟩

/-- Witness for `lz_trie_prefix_closed` at the coder `LZCoder(3, {1})`:
its trie node `[1]` is terminal and the prefix `[]` of `[1]` is a
node. -/
theorem lz_trie_prefix_closed_witness :
    ((([1], (0 : Int), true) : List Int × Int × Bool).2.2 = true) ∧
    trieHas lzW.token_map [] = true := by
  have h := lz_trie_prefix_closed lzW (ReachableLZ.init 3 [1] lzW rfl)
  exact ⟨h.1 ([1], 0, true) (by decide), h.2 ([1], 0, true) (by decide) [] (by decide)⟩

/-! ## The contextual encoder from bpe.cpp (C8)

`contextual_encode` keeps a current context and repeatedly scans the
context's token map for the entry whose value is the longest prefix of
the remaining input, emitting that entry's token.  The inner
`unordered_map` of a context is modeled as an association list in
iteration order (the canonical model of the container's unspecified
iteration order); the scan keeps the first entry that strictly
improves on the best length so far, starting from
`best_match = 0, best_value = ()`. -/

/-- One iteration of the inner scan of `contextual_encode`: replace
the best candidate when the entry's value is a prefix of the remaining
input and strictly longer than the current best value. -/
def bestStep (xs : List Int) (best e : Int × List Int) : Int × List Int :=
  if e.2.isPrefixOf xs ∧ best.2.length < e.2.length then e else best

/-- The inner scan of `contextual_encode` over one context's entries,
starting from `best_match = 0` with the empty `best_value`. -/
def bestMatch (entries : List (Int × List Int)) (xs : List Int) : Int × List Int :=
  entries.foldl (bestStep xs) (0, [])

/-- `contextual_tokens.at(context)`: the entry list of a context, or
`none` (a thrown `std::out_of_range`) for an unknown context. -/
def ctxFind (m : List (Int × List (Int × List Int))) (k : Int) :
    Option (List (Int × List Int)) :=
  match m with
  | [] => none
  | (k', v) :: rest => if k' = k then some v else ctxFind rest k

/-- The `contextual_encode` loop with fuel: emit the best match's
token, switch the context to it and drop the matched value.  `none`
models the out-of-range lookup of an unknown context and the
non-terminating loop reached when the best value is empty (then
`cur_idx` no longer advances). -/
def contextualEncodeGo (m : List (Int × List (Int × List Int))) :
    Nat → Int → List Int → Option (List Int)
  | 0, _, _ => none
  | fuel + 1, ctx, xs =>
    match xs with
    | [] => some []
    | x :: rest =>
      match ctxFind m ctx with
      | none => none
      | some entries =>
        match contextualEncodeGo m fuel (bestMatch entries (x :: rest)).1
          ((x :: rest).drop (bestMatch entries (x :: rest)).2.length) with
        | none => none
        | some out => some ((bestMatch entries (x :: rest)).1 :: out)

/-- `contextual_encode(tokens, contextual_tokens)` from bpe.cpp,
starting from context `0`; each productive step consumes at least one
symbol, so `tokens.length + 1` units of fuel are exact. -/
def contextual_encode (m : List (Int × List (Int × List Int)))
    (tokens : List Int) : Option (List Int) :=
  contextualEncodeGo m (tokens.length + 1) 0 tokens

lemma foldl_bestStep (xs : List Int) :
    ∀ (entries : List (Int × List Int)) (b : Int × List Int),
      (entries.foldl (bestStep xs) b = b ∧
        (∀ e ∈ entries, e.2.isPrefixOf xs = true → e.2.length ≤ b.2.length)) ∨
      (entries.foldl (bestStep xs) b ∈ entries ∧
        (entries.foldl (bestStep xs) b).2.isPrefixOf xs = true ∧
        b.2.length < (entries.foldl (bestStep xs) b).2.length ∧
        (∀ e ∈ entries, e.2.isPrefixOf xs = true →
          e.2.length ≤ (entries.foldl (bestStep xs) b).2.length) ∧
        entries.find? (fun e => e.2.isPrefixOf xs &&
          decide ((entries.foldl (bestStep xs) b).2.length ≤ e.2.length)) =
          some (entries.foldl (bestStep xs) b)) := by
  intro entries
  induction entries with
  | nil =>
    intro b
    left
    exact ⟨rfl, fun e he => absurd he (List.not_mem_nil e)⟩
  | cons a rest ih =>
    intro b
    by_cases hc : a.2.isPrefixOf xs = true ∧ b.2.length < a.2.length
    · have hstep : bestStep xs b a = a := by
        unfold bestStep
        rw [if_pos hc]
      have hfold : (a :: rest).foldl (bestStep xs) b = rest.foldl (bestStep xs) a := by
        rw [List.foldl_cons, hstep]
      rcases ih a with ⟨h1, h2⟩ | ⟨h1, h2, h3, h4, h5⟩
      · right
        rw [hfold, h1]
        refine ⟨List.mem_cons_self a rest, hc.1, hc.2, ?_, ?_⟩
        · intro e he hpe
          rcases List.mem_cons.mp he with h6 | h6
          · rw [h6]
          · exact h2 e h6 hpe
        · rw [List.find?_cons_of_pos _ (by simp [hc.1])]
      · right
        rw [hfold]
        refine ⟨List.mem_cons_of_mem a h1, h2, lt_trans hc.2 h3, ?_, ?_⟩
        · intro e he hpe
          rcases List.mem_cons.mp he with h6 | h6
          · rw [h6]
            exact le_of_lt h3
          · exact h4 e h6 hpe
        · rw [List.find?_cons_of_neg _ (by simp [hc.1]; omega)]
          exact h5
    · have hstep : bestStep xs b a = b := by
        unfold bestStep
        rw [if_neg hc]
      have hfold : (a :: rest).foldl (bestStep xs) b = rest.foldl (bestStep xs) b := by
        rw [List.foldl_cons, hstep]
      have hlea : a.2.isPrefixOf xs = true → a.2.length ≤ b.2.length := by
        intro hpa
        by_contra h6
        exact hc ⟨hpa, by omega⟩
      rcases ih b with ⟨h1, h2⟩ | ⟨h1, h2, h3, h4, h5⟩
      · left
        rw [hfold, h1]
        refine ⟨rfl, ?_⟩
        intro e he hpe
        rcases List.mem_cons.mp he with h6 | h6
        · exact h6 ▸ hlea (h6 ▸ hpe)
        · exact h2 e h6 hpe
      · right
        rw [hfold]
        refine ⟨List.mem_cons_of_mem a h1, h2, h3, ?_, ?_⟩
        · intro e he hpe
          rcases List.mem_cons.mp he with h6 | h6
          · rw [h6]
            exact le_of_lt (lt_of_le_of_lt (h6 ▸ hlea (h6 ▸ hpe)) h3)
          · exact h4 e h6 hpe
        · rw [List.find?_cons_of_neg _ (by
            by_cases hpa : a.2.isPrefixOf xs = true
            · simp only [hpa, Bool.true_and, decide_eq_true_eq]
              have h7 := hlea hpa
              omega
            · simp [hpa])]
          exact h5

lemma find?_first_le (p : Int × List Int → Bool) (l : List (Int × List Int))
    (w e : Int × List Int) (hfind : l.find? p = some w)
    (hsort : List.Pairwise (fun a b => a.1 < b.1) l)
    (he : e ∈ l) (hpe : p e = true) : w.1 ≤ e.1 := by
  induction l with
  | nil => cases hfind
  | cons a rest ih =>
    by_cases hpa : p a = true
    · rw [List.find?_cons_of_pos _ hpa] at hfind
      injection hfind with h1
      subst h1
      rcases List.mem_cons.mp he with h | h
      · rw [h]
      · exact le_of_lt ((List.pairwise_cons.mp hsort).1 e h)
    · rw [List.find?_cons_of_neg _ hpa] at hfind
      rcases List.mem_cons.mp he with h | h
      · exact absurd (h ▸ hpe) hpa
      · exact ih hfind (List.pairwise_cons.mp hsort).2 h

/-- C8 (counterexample to the claim as stated): the inner scan keeps
the first entry of the context map achieving the maximal candidate
length, which need not carry the smallest token: with the context's
entries iterated in the order `(0, ()), (5, (7)), (3, (7))`, the
candidates `(5, (7))` and `(3, (7))` tie at length 1 and the encoder
emits token `5`, not the smaller `3`. -/
theorem contextual_tie_counterexample :
    bestMatch [(0, []), (5, [7]), (3, [7])] [7] = (5, [7]) ∧
    contextual_encode [(0, [(0, []), (5, [7]), (3, [7])])] [7] = some [5] ∧
    ((3 : Int), [(7 : Int)]) ∈ [((0 : Int), ([] : List Int)), (5, [7]), (3, [7])] ∧
    ([7] : List Int).isPrefixOf [7] = true ∧ (3 : Int) < 5 := by decide

/-- C8 (amended): in each step of contextual encoding, among all
entries `(t, value)` of the current context's map whose value is a
prefix of the remaining input, the encoder selects the candidate with
the longest value; ties between equally long candidates resolve to the
entry iterated first in the context map, which is the smallest `t`
when the map's iteration order lists tokens in ascending order.  Each
loop iteration emits the selected token, switches the context to it
and drops the matched value. -/
theorem contextual_step_selection (entries : List (Int × List Int)) (xs : List Int)
    (hex : ∃ e ∈ entries, e.2.isPrefixOf xs = true ∧ e.2 ≠ []) :
    (bestMatch entries xs ∈ entries ∧
      (bestMatch entries xs).2.isPrefixOf xs = true) ∧
    (∀ e ∈ entries, e.2.isPrefixOf xs = true →
      e.2.length ≤ (bestMatch entries xs).2.length) ∧
    entries.find? (fun e => e.2.isPrefixOf xs &&
      decide ((bestMatch entries xs).2.length ≤ e.2.length)) =
      some (bestMatch entries xs) ∧
    (List.Pairwise (fun a b => a.1 < b.1) entries →
      ∀ e ∈ entries, e.2.isPrefixOf xs = true →
        e.2.length = (bestMatch entries xs).2.length →
        (bestMatch entries xs).1 ≤ e.1) ∧
    (∀ (m : List (Int × List (Int × List Int))) (ctx : Int) (fuel : Nat)
      (x : Int) (rest : List Int),
      ctxFind m ctx = some entries → xs = x :: rest →
      contextualEncodeGo m (fuel + 1) ctx xs =
        match contextualEncodeGo m fuel (bestMatch entries xs).1
          (xs.drop (bestMatch entries xs).2.length) with
        | none => none
        | some out => some ((bestMatch entries xs).1 :: out)) := by
  rcases foldl_bestStep xs entries (0, []) with ⟨h1, h2⟩ | ⟨h1, h2, h3, h4, h5⟩
  · obtain ⟨e, he, hpe, hne⟩ := hex
    have h6 := h2 e he hpe
    exact absurd (List.length_eq_zero.mp (Nat.le_zero.mp h6)) hne
  · refine ⟨⟨h1, h2⟩, h4, h5, ?_, ?_⟩
    · intro hsort e he hpe hlen
      exact find?_first_le _ entries (bestMatch entries xs) e h5 hsort he
        (by simp [hpe, hlen, bestMatch])
    · intro m ctx fuel x rest hfind hxs
      subst hxs
      simp only [contextualEncodeGo, hfind]

/-- Witness for `contextual_step_selection` on the context map
`(0, ()), (1, (7)), (2, (7))` and the remaining input `(7, 9)`: the
selected candidate is an entry whose value prefixes the input, and —
with the entries in ascending token order — its token is no larger
than that of the tied candidate `(2, (7))`. -/
theorem contextual_step_selection_witness :
    (bestMatch [((0 : Int), ([] : List Int)), (1, [7]), (2, [7])] [7, 9] ∈
        [((0 : Int), ([] : List Int)), (1, [7]), (2, [7])] ∧
      (bestMatch [((0 : Int), ([] : List Int)), (1, [7]), (2, [7])] [7, 9]).2.isPrefixOf
        [7, 9] = true) ∧
    (bestMatch [((0 : Int), ([] : List Int)), (1, [7]), (2, [7])] [7, 9]).1 ≤ 2 := by
  have h := contextual_step_selection [((0 : Int), ([] : List Int)), (1, [7]), (2, [7])]
    [7, 9] (by decide)
  exact ⟨h.1, h.2.2.2.1 (by decide) (2, [7]) (by decide) (by decide) (by decide)⟩

/-! ## The composed tokenizer pipeline from bpe.cpp (C9)

`ComposedTokenizer` holds a vector of tokenizers accessed only through
their virtual `encode`/`decode`; each stage is therefore embedded as a
pair of sequence transformers. -/

/-- A pipeline stage: the `encode` and `decode` methods of one
tokenizer. -/
structure SimpleTokenizer where
  encodeFn : List Int → List Int
  decodeFn : List Int → List Int

/-- `ComposedTokenizer::encode`: return the input unchanged for an
empty pipeline, otherwise pass the sequence through each stage's
`encode` in order. -/
def composedEncode (ts : List SimpleTokenizer) (tokens : List Int) : List Int :=
  if ts.isEmpty then tokens
  else ts.foldl (fun cur t => t.encodeFn cur) tokens

/-- `ComposedTokenizer::decode`: return the input unchanged for an
empty pipeline, otherwise pass the sequence through each stage's
`decode` in reverse order. -/
def composedDecode (ts : List SimpleTokenizer) (tokens : List Int) : List Int :=
  if ts.isEmpty then tokens
  else ts.reverse.foldl (fun cur t => t.decodeFn cur) tokens

/-- C9: for a two-stage pipeline `(A, B)`, `encode` is
`B.encode ∘ A.encode` and `decode` is `A.decode ∘ B.decode`; in
general `encode` folds the stages' `encode` functions left to right,
`decode` folds their `decode` functions right to left, and the empty
pipeline's `encode` and `decode` are the identity. -/
theorem composed_tokenizer_laws (A B : SimpleTokenizer) (x y : List Int) :
    composedEncode [A, B] x = B.encodeFn (A.encodeFn x) ∧
    composedDecode [A, B] y = A.decodeFn (B.decodeFn y) ∧
    (∀ (ts : List SimpleTokenizer) (z : List Int),
      composedEncode ts z = ts.foldl (fun cur t => t.encodeFn cur) z) ∧
    (∀ (ts : List SimpleTokenizer) (z : List Int),
      composedDecode ts z = ts.foldr (fun t cur => t.decodeFn cur) z) ∧
    composedEncode [] x = x ∧ composedDecode [] y = y := by
  have henc : ∀ (ts : List SimpleTokenizer) (z : List Int),
      composedEncode ts z = ts.foldl (fun cur t => t.encodeFn cur) z := by
    intro ts z
    cases ts with
    | nil => rfl
    | cons t rest =>
      unfold composedEncode
      rw [if_neg (by simp)]
  have hdec : ∀ (ts : List SimpleTokenizer) (z : List Int),
      composedDecode ts z = ts.foldr (fun t cur => t.decodeFn cur) z := by
    intro ts z
    cases ts with
    | nil => rfl
    | cons t rest =>
      unfold composedDecode
      rw [if_neg (by simp), List.foldl_reverse]
  refine ⟨?_, ?_, henc, hdec, rfl, rfl⟩
  · rw [henc]
    rfl
  · rw [hdec]
    rfl
